import Mathlib

/-!
# SansScript LSP core: verified shallow embedding

This file embeds the document-analysis pipeline of the SansScript language
server (lexer `tokenize_line`, document builder `parse_document`, the
diagnostics checks of `analyzer.py`, and the semantic-token encoder of
`semantic_tokens.py`) as executable Lean definitions over `List Char`
(Python strings are sequences of characters; all columns in the source are
character indices), and proves the frozen specification claims about them.
-/

set_option maxHeartbeats 1000000

namespace SansScript

/-! ## Lexer (`parser.py`) -/

inductive TokenType where
  | KEYWORD
  | BUILTIN
  | CONSTANT
  | LOGICAL_OP
  | IDENTIFIER
  | NUMBER
  | STRING
  | OPERATOR
  | PAREN_OPEN
  | PAREN_CLOSE
  | BRACKET_OPEN
  | BRACKET_CLOSE
  | COMMA
  | COLON
  | COMMENT
  | WHITESPACE
  | UNKNOWN
deriving DecidableEq, Repr

structure Token where
  type : TokenType
  value : List Char
  line : Nat
  col : Nat
  end_col : Nat
deriving DecidableEq, Repr

/-- The set `KEYWORD_NAMES` from `symbols.py`. -/
def KEYWORD_NAMES : List (List Char) :=
  ["यदि", "अथवा_यदि", "अन्यथा", "यावत्", "कार्यम्", "प्रतिददाति", "विरम", "अनुवर्तय"].map String.toList

/-- The set `BUILTIN_NAMES` from `symbols.py`. -/
def BUILTIN_NAMES : List (List Char) :=
  ["मुद्रय", "निर्गम", "दीर्घता", "योजय", "उपपाठ", "अन्वेषय", "वर्णाङ्क", "अंकवर्ण",
   "पाठ्य", "पूर्णाङ्क", "पूर्णाङ्क_पाठ_से", "विभज", "सञ्चिका_पठ"].map String.toList

/-- The set `CONSTANT_NAMES` from `symbols.py`. -/
def CONSTANT_NAMES : List (List Char) := ["सत्यम्", "असत्यम्"].map String.toList

/-- The set `LOGICAL_OP_NAMES` from `symbols.py`. -/
def LOGICAL_OP_NAMES : List (List Char) := ["च", "वा", "न"].map String.toList

/-- The set `BLOCK_OPENERS` from `symbols.py`. -/
def BLOCK_OPENERS : List (List Char) :=
  ["यदि", "अथवा_यदि", "अन्यथा", "यावत्", "कार्यम्"].map String.toList

/-- The function-definition keyword `कार्यम्`. -/
def kwFunc : List Char := "कार्यम्".toList

/-- Regex class `[ऀ-ॿ_a-zA-Z]` (`_IDENT_START` in `parser.py`). -/
def identStartCh (c : Char) : Bool :=
  decide ((0x900 ≤ c.toNat ∧ c.toNat ≤ 0x97F) ∨ c = '_' ∨
    ('a'.toNat ≤ c.toNat ∧ c.toNat ≤ 'z'.toNat) ∨ ('A'.toNat ≤ c.toNat ∧ c.toNat ≤ 'Z'.toNat))

/-- Regex class `[ऀ-ॿ_a-zA-Z0-9०-९]` (`_IDENT_PART`). -/
def identPartCh (c : Char) : Bool :=
  identStartCh c || decide (('0'.toNat ≤ c.toNat ∧ c.toNat ≤ '9'.toNat) ∨
    (0x966 ≤ c.toNat ∧ c.toNat ≤ 0x96F))

/-- Regex class `[0-9०-९]` (`_DIGIT_START` = `_DIGIT_PART`). -/
def digitCh (c : Char) : Bool :=
  decide (('0'.toNat ≤ c.toNat ∧ c.toNat ≤ '9'.toNat) ∨ (0x966 ≤ c.toNat ∧ c.toNat ≤ 0x96F))

/-- The set `_OPERATORS_DOUBLE` from `parser.py`. -/
def OPERATORS_DOUBLE : List (List Char) := [['=', '='], ['!', '='], ['<', '='], ['>', '=']]

/-- The set `_OPERATORS_SINGLE` from `parser.py`. -/
def OPERATORS_SINGLE : List Char := ['+', '-', '*', '/', '%', '=', '<', '>']

def isSpaceTab (c : Char) : Bool := c = ' ' || c = '\t'

/-- Word classification of the identifier branch of `tokenize_line`
(keyword / builtin / constant / logical-op checked in that order, else
identifier). -/
def classifyWord (w : List Char) : TokenType :=
  if w ∈ KEYWORD_NAMES then .KEYWORD
  else if w ∈ BUILTIN_NAMES then .BUILTIN
  else if w ∈ CONSTANT_NAMES then .CONSTANT
  else if w ∈ LOGICAL_OP_NAMES then .LOGICAL_OP
  else .IDENTIFIER

/-- Classification of the single-character fall-through branches of
`tokenize_line` (operator, parens, brackets, comma, colon, else unknown);
each consumes exactly one character in the source. -/
def singleTok (c : Char) : TokenType :=
  if c ∈ OPERATORS_SINGLE then .OPERATOR
  else if c = '(' then .PAREN_OPEN
  else if c = ')' then .PAREN_CLOSE
  else if c = '[' then .BRACKET_OPEN
  else if c = ']' then .BRACKET_CLOSE
  else if c = ',' then .COMMA
  else if c = ':' then .COLON
  else .UNKNOWN

/-- Scanning loop of `tokenize_line`.  The Python loop advances a cursor `i`
through the line; here the still-unscanned suffix is passed explicitly and
`i` is the column of its first character.  Every iteration consumes at least
one character, so `fuel` equal to the length of the suffix suffices; the
zero-fuel case is unreachable from `tokenize_line`. -/
def tokenize_go (line_no : Nat) : Nat → List Char → Nat → List Token
  | 0, _, _ => []
  | _, [], _ => []
  | fuel + 1, c :: rest, i =>
    if c = '#' then
      [⟨.COMMENT, c :: rest, line_no, i, i + (c :: rest).length⟩]
    else if isSpaceTab c then
      ⟨.WHITESPACE, (c :: rest).takeWhile isSpaceTab, line_no, i,
        i + ((c :: rest).takeWhile isSpaceTab).length⟩ ::
      tokenize_go line_no fuel ((c :: rest).dropWhile isSpaceTab)
        (i + ((c :: rest).takeWhile isSpaceTab).length)
    else if c = '"' then
      match rest.dropWhile (fun d => decide (d ≠ '"')) with
      | '"' :: rest2 =>
        ⟨.STRING, c :: (rest.takeWhile (fun d => decide (d ≠ '"')) ++ ['"']), line_no, i,
          i + (c :: (rest.takeWhile (fun d => decide (d ≠ '"')) ++ ['"'])).length⟩ ::
        tokenize_go line_no fuel rest2
          (i + (c :: (rest.takeWhile (fun d => decide (d ≠ '"')) ++ ['"'])).length)
      | _ =>
        [⟨.STRING, c :: rest.takeWhile (fun d => decide (d ≠ '"')), line_no, i,
          i + (c :: rest.takeWhile (fun d => decide (d ≠ '"'))).length⟩]
    else if digitCh c then
      ⟨.NUMBER, (c :: rest).takeWhile digitCh, line_no, i,
        i + ((c :: rest).takeWhile digitCh).length⟩ ::
      tokenize_go line_no fuel ((c :: rest).dropWhile digitCh)
        (i + ((c :: rest).takeWhile digitCh).length)
    else if identStartCh c then
      ⟨classifyWord (c :: rest.takeWhile identPartCh), c :: rest.takeWhile identPartCh, line_no,
        i, i + (c :: rest.takeWhile identPartCh).length⟩ ::
      tokenize_go line_no fuel (rest.dropWhile identPartCh)
        (i + (c :: rest.takeWhile identPartCh).length)
    else
      match rest with
      | c2 :: rest2 =>
        if [c, c2] ∈ OPERATORS_DOUBLE then
          ⟨.OPERATOR, [c, c2], line_no, i, i + 2⟩ :: tokenize_go line_no fuel rest2 (i + 2)
        else
          ⟨singleTok c, [c], line_no, i, i + 1⟩ :: tokenize_go line_no fuel (c2 :: rest2) (i + 1)
      | [] =>
        [⟨singleTok c, [c], line_no, i, i + 1⟩]

/-- The function `tokenize_line` from `parser.py`. -/
def tokenize_line (text : List Char) (line_no : Nat) : List Token :=
  tokenize_go line_no text.length text 0

/-- The function `measure_indent` from `parser.py` (space counts 1, tab counts 4, stop at
the first other character). -/
def measure_indent : List Char → Nat
  | [] => 0
  | c :: rest =>
    if c = ' ' then 1 + measure_indent rest
    else if c = '\t' then 4 + measure_indent rest
    else 0

/-- The function `_significant_tokens` from `parser.py`. -/
def _significant_tokens (toks : List Token) : List Token :=
  toks.filter (fun t => decide (t.type ≠ TokenType.WHITESPACE ∧ t.type ≠ TokenType.COMMENT))

/-- Python `source.split('\n')`. -/
def splitNl : List Char → List (List Char)
  | [] => [[]]
  | c :: rest =>
    if c = '\n' then [] :: splitNl rest
    else
      match splitNl rest with
      | [] => [[c]]
      | l :: ls => (c :: l) :: ls

/-- The line-list preparation of `parse_document`: split on newlines, drop a
single trailing empty line, and treat empty input as one empty line. -/
def rawLinesOf (source : List Char) : List (List Char) :=
  let raw0 := splitNl source
  let raw1 := if raw0.getLast? = some [] then raw0.dropLast else raw0
  if raw1.isEmpty then [[]] else raw1

/-! ## Parser data model and document build (`parser.py`) -/

structure ParamInfo where
  name : List Char
  line : Nat
  col : Nat
deriving DecidableEq, Repr

structure FuncDef where
  name : List Char
  line : Nat
  col : Nat
  end_line : Nat
  params : List ParamInfo
  body_indent : Nat
deriving DecidableEq, Repr

structure VarDef where
  name : List Char
  line : Nat
  col : Nat
  scope : List Char
deriving DecidableEq, Repr

structure ParsedDocument where
  tokens : List (List Token)
  functions : List (List Char × FuncDef)
  vars : List (List Char × VarDef)
  line_indents : List Nat
  lines : List (List Char)
deriving DecidableEq, Repr

/-- Association-list lookup; models Python `dict[key]` / `key in dict`. -/
def lookupA {α : Type} (k : List Char) : List (List Char × α) → Option α
  | [] => none
  | (k', v) :: rest => if k' = k then some v else lookupA k rest

/-- Models Python `dict[key] = value` (replace in place or append). -/
def setA {α : Type} (k : List Char) (v : α) : List (List Char × α) → List (List Char × α)
  | [] => [(k, v)]
  | (k', v') :: rest => if k' = k then (k, v) :: rest else (k', v') :: setA k v rest

/-- Models `if key not in dict: dict[key] = value`. -/
def insertNew {α : Type} (k : List Char) (v : α) (l : List (List Char × α)) :
    List (List Char × α) :=
  if (lookupA k l).isSome then l else l ++ [(k, v)]

/-- Models the Python mutation `current_func.end_line = e`: `current_func`
always aliases the `functions` entry under its own name, so the mutation is
an update of that entry. -/
def updEnd (k : List Char) (e : Nat) (l : List (List Char × FuncDef)) :
    List (List Char × FuncDef) :=
  l.map (fun p => if p.1 = k then (p.1, { p.2 with end_line := e }) else p)

/-- State of the single pass over lines in `parse_document`: the function
table, the variable table, and the current enclosing function together with
its header indentation (`current_func` / `func_indent`). -/
structure PState where
  functions : List (List Char × FuncDef)
  vars : List (List Char × VarDef)
  cur : Option (List Char × Nat)
deriving Repr

/-- The function `_parse_func_header` from `parser.py`. -/
def _parse_func_header (sig : List Token) (lineno : Nat) (indent : Nat) : Option FuncDef :=
  if sig.length < 4 then none
  else
    match sig with
    | _ :: name_tok :: rest2 =>
      if name_tok.type ≠ TokenType.IDENTIFIER then none
      else
        match rest2.dropWhile (fun t => decide (t.type ≠ TokenType.PAREN_OPEN)) with
        | [] => none
        | _ :: inside =>
          some ⟨name_tok.value, lineno, name_tok.col, lineno,
            ((inside.takeWhile (fun t => decide (t.type ≠ TokenType.PAREN_CLOSE))).filter
              (fun t => decide (t.type = TokenType.IDENTIFIER))).map
                (fun t => ⟨t.value, t.line, t.col⟩),
            indent + 4⟩
    | _ => none

/-- The function `_extract_assignment` from `parser.py` (`cur_name` is the name of the
enclosing function, `none` for the global scope). -/
def _extract_assignment (sig : List Token) (lineno : Nat)
    (vars : List (List Char × VarDef)) (cur_name : Option (List Char)) :
    List (List Char × VarDef) :=
  if sig.length < 3 then vars
  else
    match sig with
    | t0 :: t1 :: _ =>
      if t0.type = TokenType.IDENTIFIER ∧ t1.type = TokenType.OPERATOR ∧ t1.value = ['='] then
        insertNew
          (match cur_name with
           | some n => n ++ ':' :: t0.value
           | none => t0.value)
          ⟨t0.value, lineno, t0.col,
            match cur_name with
            | some n => n
            | none => "global".toList⟩
          vars
      else vars
    | _ => vars

/-- Parameter pre-registration performed right after a function header is
recognized in `parse_document`. -/
def registerParams (fd : FuncDef) (vars : List (List Char × VarDef)) :
    List (List Char × VarDef) :=
  fd.params.foldl
    (fun vs p => insertNew (fd.name ++ ':' :: p.name) ⟨p.name, p.line, p.col, fd.name⟩ vs)
    vars

/-- The close-or-extend block at the top of the loop body of
`parse_document`: while inside a function, a significant line at or below
the header indentation closes it at the previous line, any other
significant line extends its extent. -/
def parseStepClose (st : PState) (lineno : Nat) (indent : Nat) : PState :=
  match st.cur with
  | none => st
  | some (nm, fI) =>
    if indent ≤ fI then
      { st with functions := updEnd nm (lineno - 1) st.functions, cur := none }
    else
      { st with functions := updEnd nm lineno st.functions }

/-- The header-or-assignment block of the loop body of `parse_document`:
a recognized `कार्यम्` header registers a function (with its parameters) and
becomes current; otherwise the line is scanned for a simple assignment. -/
def parseStepMain (st1 : PState) (sig : List Token) (lineno indent : Nat) : PState :=
  match sig with
  | t0 :: _ =>
    if t0.type = TokenType.KEYWORD ∧ t0.value = kwFunc then
      match _parse_func_header sig lineno indent with
      | some fd =>
        { functions := setA fd.name fd st1.functions,
          vars := registerParams fd st1.vars,
          cur := some (fd.name, indent) }
      | none =>
        { st1 with
          vars := _extract_assignment sig lineno st1.vars (st1.cur.map Prod.fst) }
    else
      { st1 with
        vars := _extract_assignment sig lineno st1.vars (st1.cur.map Prod.fst) }
  | [] => st1

/-- One iteration of the main loop of `parse_document` over a line: blank
and comment-only lines are skipped entirely, otherwise the close-or-extend
block runs and then the header-or-assignment block. -/
def parseStep (st : PState) (lineno : Nat) (toks : List Token) (indent : Nat) : PState :=
  if (_significant_tokens toks).isEmpty then st
  else
    parseStepMain (parseStepClose st lineno indent) (_significant_tokens toks) lineno indent

/-- The main loop of `parse_document` over the (token, indent) data of each
line, carried with the 0-based line number. -/
def parseLines (st : PState) : Nat → List (List Token × Nat) → PState
  | _, [] => st
  | lineno, (toks, ind) :: rest => parseLines (parseStep st lineno toks ind) (lineno + 1) rest

/-- Trailing fix-up of `parse_document`: a document ending inside a function
body closes it at the last line. -/
def finishParse (st : PState) (n : Nat) : PState :=
  match st.cur with
  | some (nm, _) => { st with functions := updEnd nm (n - 1) st.functions }
  | none => st

/-- The function `parse_document` from `parser.py`. -/
def parse_document (source : List Char) : ParsedDocument :=
  let raw_lines := rawLinesOf source
  let all_tokens := raw_lines.enum.map (fun p => tokenize_line p.2 p.1)
  let line_indents := raw_lines.map measure_indent
  let st := finishParse (parseLines ⟨[], [], none⟩ 0 (all_tokens.zip line_indents))
    raw_lines.length
  ⟨all_tokens, st.functions, st.vars, line_indents, raw_lines⟩

/-! ## Diagnostics (`analyzer.py`)

LSP diagnostics are modelled with the line and the character span of their
range; the distinct message strings of `analyzer.py` (two of which carry an
interpolated name) are modelled by an inductive type. -/

inductive Severity where
  | error
  | warning
deriving DecidableEq, Repr

inductive Msg where
  | expectedIndentedBlock
  | malformedFuncDef
  | missingCloseParen
  | stmtNeedsColon (kw : List Char)
  | elseNeedsColon
  | orphanElif
  | orphanElse
  | unmatchedParens
  | unmatchedBrackets
  | undefinedFunction (name : List Char)
deriving DecidableEq, Repr

structure Diag where
  line : Nat
  startCol : Nat
  endCol : Nat
  message : Msg
  severity : Severity
deriving DecidableEq, Repr

/-- The whitespace class of Python `str.strip()`: the characters for which
Python `str.isspace()` holds, namely U+0009..U+000D, U+001C..U+001F, the
space U+0020, U+0085, U+00A0, U+1680, U+2000..U+200A, U+2028, U+2029,
U+202F, U+205F and U+3000. -/
def isPySpace (c : Char) : Bool :=
  (0x09 ≤ c.toNat && c.toNat ≤ 0x0D) || (0x1C ≤ c.toNat && c.toNat ≤ 0x1F) ||
  c.toNat = 0x20 || c.toNat = 0x85 || c.toNat = 0xA0 || c.toNat = 0x1680 ||
  (0x2000 ≤ c.toNat && c.toNat ≤ 0x200A) || c.toNat = 0x2028 || c.toNat = 0x2029 ||
  c.toNat = 0x202F || c.toNat = 0x205F || c.toNat = 0x3000

/-- Python `line.strip()`. -/
def pyStrip (l : List Char) : List Char :=
  ((l.dropWhile isPySpace).reverse.dropWhile isPySpace).reverse

/-- Python `stripped.endswith(':')`. -/
def endsColon (l : List Char) : Bool := l.getLast? = some ':'

/-- Python `stripped.startswith('#')` on the stripped line, combined with the
emptiness test: the `if not stripped or stripped.startswith('#'): continue`
guard shared by `_check_indentation` and `_check_orphaned_elif_else`. -/
def blankOrComment (stripped : List Char) : Bool :=
  stripped.isEmpty || ['#'].isPrefixOf stripped

/-- The function `_line_opens_block` from `analyzer.py`. -/
def _line_opens_block (stripped : List Char) : Bool :=
  BLOCK_OPENERS.any (fun kw => kw.isPrefixOf stripped)

/-- Loop of `_check_indentation`, carrying `prev_indent` and
`prev_is_block_opener` over the (line, indent) pairs. -/
def checkIndentGo (prev_indent : Nat) (prev_open : Bool) (lineno : Nat) :
    List (List Char × Nat) → List Diag
  | [] => []
  | (line, ind) :: rest =>
    if blankOrComment (pyStrip line) then checkIndentGo prev_indent prev_open (lineno + 1) rest
    else
      (if prev_open ∧ ind ≤ prev_indent then
        [⟨lineno, 0, line.length, .expectedIndentedBlock, .warning⟩]
      else []) ++
      checkIndentGo ind (endsColon (pyStrip line) && _line_opens_block (pyStrip line))
        (lineno + 1) rest

/-- The function `_check_indentation` from `analyzer.py`. -/
def _check_indentation (doc : ParsedDocument) : List Diag :=
  checkIndentGo 0 false 0 (doc.lines.zip doc.line_indents)

/-- The diagnostics `_check_block_structure` emits for one line. -/
def blockStructureLine (lineno : Nat) (line : List Char) (toks : List Token) : List Diag :=
  match _significant_tokens toks with
  | [] => []
  | t0 :: _ =>
    (if t0.type = TokenType.KEYWORD ∧ t0.value = kwFunc then
      if ¬ ('(' ∈ pyStrip line) ∨ ¬ endsColon (pyStrip line) then
        [⟨lineno, 0, line.length, .malformedFuncDef, .error⟩]
      else if ¬ (')' ∈ pyStrip line) then
        [⟨lineno, 0, line.length, .missingCloseParen, .error⟩]
      else []
    else []) ++
    (if t0.type = TokenType.KEYWORD ∧
        (t0.value = "यदि".toList ∨ t0.value = "यावत्".toList ∨ t0.value = "अथवा_यदि".toList) ∧
        ¬ endsColon (pyStrip line) then
      [⟨lineno, 0, line.length, .stmtNeedsColon t0.value, .error⟩]
    else []) ++
    (if t0.type = TokenType.KEYWORD ∧ t0.value = "अन्यथा".toList ∧ ¬ endsColon (pyStrip line) then
      [⟨lineno, 0, line.length, .elseNeedsColon, .error⟩]
    else [])

/-- The function `_check_block_structure` from `analyzer.py`. -/
def _check_block_structure (doc : ParsedDocument) : List Diag :=
  ((doc.lines.zip doc.tokens).enum.map (fun p => blockStructureLine p.1 p.2.1 p.2.2)).flatten

/-- Models `last_if_indent[indent] = lineno` on the indent-keyed dict of
`_check_orphaned_elif_else`. -/
def setO (st : Nat → Option Nat) (k v : Nat) : Nat → Option Nat :=
  fun j => if j = k then some v else st j

/-- Models `del last_if_indent[indent]` / `last_if_indent.pop(indent, None)`. -/
def eraseO (st : Nat → Option Nat) (k : Nat) : Nat → Option Nat :=
  fun j => if j = k then none else st j

/-- One iteration of `_check_orphaned_elif_else`: the diagnostics emitted for
the line and the updated indent-keyed open-`if` table. -/
def orphanStep (st : Nat → Option Nat) (lineno : Nat) (line : List Char) (indent : Nat) :
    List Diag × (Nat → Option Nat) :=
  let stripped := pyStrip line
  if blankOrComment stripped then ([], st)
  else if "यदि".toList.isPrefixOf stripped ∧ endsColon stripped then
    ([], setO st indent lineno)
  else if "अथवा_यदि".toList.isPrefixOf stripped then
    if st indent = none then
      ([⟨lineno, 0, line.length, .orphanElif, .error⟩], st)
    else
      ([], setO st indent lineno)
  else if "अन्यथा".toList.isPrefixOf stripped ∧ endsColon stripped then
    if st indent = none then
      ([⟨lineno, 0, line.length, .orphanElse, .error⟩], st)
    else
      ([], eraseO st indent)
  else ([], eraseO st indent)

/-- Loop of `_check_orphaned_elif_else`. -/
def checkOrphanGo (st : Nat → Option Nat) (lineno : Nat) :
    List (List Char × Nat) → List Diag
  | [] => []
  | (line, ind) :: rest =>
    (orphanStep st lineno line ind).1 ++
      checkOrphanGo (orphanStep st lineno line ind).2 (lineno + 1) rest

/-- The function `_check_orphaned_elif_else` from `analyzer.py`. -/
def _check_orphaned_elif_else (doc : ParsedDocument) : List Diag :=
  checkOrphanGo (fun _ => none) 0 (doc.lines.zip doc.line_indents)

/-- The `(paren_depth, bracket_depth)` running counts of
`_check_unmatched_parens` for one line. -/
def parenDepths (toks : List Token) : Int × Int :=
  toks.foldl
    (fun d t =>
      if t.type = TokenType.PAREN_OPEN then (d.1 + 1, d.2)
      else if t.type = TokenType.PAREN_CLOSE then (d.1 - 1, d.2)
      else if t.type = TokenType.BRACKET_OPEN then (d.1, d.2 + 1)
      else if t.type = TokenType.BRACKET_CLOSE then (d.1, d.2 - 1)
      else d)
    (0, 0)

/-- The diagnostics `_check_unmatched_parens` emits for one line. -/
def unmatchedLine (lineno : Nat) (line : List Char) (toks : List Token) : List Diag :=
  (if (parenDepths toks).1 ≠ 0 then
    [⟨lineno, 0, line.length, .unmatchedParens, .error⟩]
  else []) ++
  (if (parenDepths toks).2 ≠ 0 then
    [⟨lineno, 0, line.length, .unmatchedBrackets, .error⟩]
  else [])

/-- The function `_check_unmatched_parens` from `analyzer.py`. -/
def _check_unmatched_parens (doc : ParsedDocument) : List Diag :=
  ((doc.lines.zip doc.tokens).enum.map (fun p => unmatchedLine p.1 p.2.1 p.2.2)).flatten

/-- The function `_next_significant` from `analyzer.py`: the next token after index `idx`
whose type is not whitespace. -/
def _next_significant (toks : List Token) (idx : Nat) : Option Token :=
  (toks.drop (idx + 1)).find? (fun t => decide (t.type ≠ TokenType.WHITESPACE))

/-- The emission condition of `_check_undefined_references` for the token at
index `idx` of its line. -/
def undefCallCond (functions : List (List Char × FuncDef)) (toks : List Token)
    (idx : Nat) (t : Token) : Bool :=
  decide (t.type = TokenType.IDENTIFIER) &&
  (match _next_significant toks idx with
   | some nt => decide (nt.type = TokenType.PAREN_OPEN)
   | none => false) &&
  (lookupA t.value functions).isNone &&
  decide (t.value ∉ BUILTIN_NAMES) &&
  decide (t.value ∉ KEYWORD_NAMES)

/-- The diagnostics `_check_undefined_references` emits for one line. -/
def undefLine (functions : List (List Char × FuncDef)) (lineno : Nat)
    (toks : List Token) : List Diag :=
  toks.enum.filterMap (fun p =>
    if undefCallCond functions toks p.1 p.2 then
      some ⟨lineno, p.2.col, p.2.end_col, .undefinedFunction p.2.value, .warning⟩
    else none)

/-- The function `_check_undefined_references` from `analyzer.py`. -/
def _check_undefined_references (doc : ParsedDocument) : List Diag :=
  (doc.tokens.enum.map (fun p => undefLine doc.functions p.1 p.2)).flatten

/-- The function `analyze` from `analyzer.py`: the five checks run unconditionally, each
appending to a single list. -/
def analyze (doc : ParsedDocument) : List Diag :=
  _check_indentation doc ++ _check_block_structure doc ++ _check_orphaned_elif_else doc ++
    _check_unmatched_parens doc ++ _check_undefined_references doc

/-! ## Semantic tokens (`semantic_tokens.py`) -/

/-- The map `_TYPE_MAP` from `semantic_tokens.py`. -/
def _TYPE_MAP : TokenType → Option Nat
  | .KEYWORD => some 0
  | .BUILTIN => some 1
  | .IDENTIFIER => some 2
  | .NUMBER => some 3
  | .STRING => some 4
  | .COMMENT => some 5
  | .OPERATOR => some 6
  | .LOGICAL_OP => some 6
  | .CONSTANT => some 8
  | _ => none

/-- The set `_SKIP` from `semantic_tokens.py`. -/
def _SKIP : TokenType → Bool
  | .WHITESPACE => true
  | .PAREN_OPEN => true
  | .PAREN_CLOSE => true
  | .BRACKET_OPEN => true
  | .BRACKET_CLOSE => true
  | .COMMA => true
  | .COLON => true
  | .UNKNOWN => true
  | _ => false

/-- Encoder state of `provide_semantic_tokens`: the data array built so far
and the line/column of the previously emitted token. -/
structure SemState where
  data : List Int
  prev_line : Nat
  prev_col : Nat
deriving Repr

/-- The effective type index emitted for a token (`_TYPE_MAP` value with the
identifier reclassification to function = 1 / parameter = 7). -/
def semTypeIdx (func_names param_names : List (List Char)) (t : Token) (tt0 : Nat) : Nat :=
  if t.type = TokenType.IDENTIFIER then
    if t.value ∈ func_names then 1
    else if t.value ∈ param_names then 7
    else tt0
  else tt0

/-- One iteration of the token loop of `provide_semantic_tokens`. -/
def semTokStep (func_names param_names : List (List Char)) (st : SemState) (tok : Token) :
    SemState :=
  if _SKIP tok.type then st
  else
    match _TYPE_MAP tok.type with
    | none => st
    | some tt0 =>
      { data := st.data ++
          [(tok.line : Int) - st.prev_line,
           if (tok.line : Int) - st.prev_line > 0 then (tok.col : Int)
           else (tok.col : Int) - st.prev_col,
           (tok.end_col : Int) - tok.col,
           (semTypeIdx func_names param_names tok tt0 : Int),
           0],
        prev_line := tok.line,
        prev_col := tok.col }

/-- The parameter-name set collected at the start of
`provide_semantic_tokens` (membership is all that is used of it). -/
def paramNamesOf (doc : ParsedDocument) : List (List Char) :=
  (doc.functions.map (fun p => p.2.params.map ParamInfo.name)).flatten

/-- The function-name set of `provide_semantic_tokens`. -/
def funcNamesOf (doc : ParsedDocument) : List (List Char) :=
  doc.functions.map Prod.fst

/-- The function `provide_semantic_tokens` from `semantic_tokens.py` (the `data` array of
the returned `SemanticTokens`). -/
def provide_semantic_tokens (doc : ParsedDocument) : List Int :=
  (doc.tokens.foldl
    (fun (st : SemState) (line_tokens : List Token) =>
      line_tokens.foldl (semTokStep (funcNamesOf doc) (paramNamesOf doc)) st)
    (SemState.mk [] 0 0)).data

/-! ## Specification-side definitions

The definitions below restate properties in the words of the specification
and of the (amended) claims; the theorems compare them with the embedded
source functions above. -/

/-- Contiguity of a token list starting at column `i`: each token starts
where the previous one ended, and `end_col` is exclusive (the token covers
exactly `value.length` columns). -/
def chainFrom : Nat → List Token → Prop
  | _, [] => True
  | i, t :: ts => t.col = i ∧ t.end_col = t.col + t.value.length ∧ chainFrom t.end_col ts

/-- Whether a significant-token list is a function-header line: first
significant token is the `कार्यम्` keyword (the condition guarding the header
branch of `parse_document`). -/
def isHeaderSig (sig : List Token) : Bool :=
  match sig with
  | t0 :: _ => decide (t0.type = TokenType.KEYWORD ∧ t0.value = kwFunc)
  | [] => false

/-- Whether a line's significant tokens are recognized as a function
definition header (header line whose `_parse_func_header` succeeds); this
does not depend on the line number or indentation passed to the parser. -/
def recognizedSig (sig : List Token) : Bool :=
  isHeaderSig sig && (_parse_func_header sig 0 0).isSome

/-- Spec-side scan determining a function extent: starting at line `m` after
a definition whose indentation is `dI`, blank and comment-only lines are
skipped; the first significant line at indentation `≤ dI` closes the body at
the previous line; a recognized nested function header freezes the extent at
its own line; reaching the end of the document yields the fallback `fb` (the
last line of the document). -/
def scanBody (dI fb : Nat) : Nat → List (List Token × Nat) → Nat
  | _, [] => fb
  | m, p :: rest =>
    if (_significant_tokens p.1).isEmpty then scanBody dI fb (m + 1) rest
    else if p.2 ≤ dI then m - 1
    else if recognizedSig (_significant_tokens p.1) then m
    else scanBody dI fb (m + 1) rest

/-- Spec-side body extent of a function declared at line `d` with
indentation `dI`, over the per-line `(tokens, indent)` data `L` of the whole
document. -/
def bodyEndSpec (L : List (List Token × Nat)) (d dI : Nat) : Nat :=
  scanBody dI (L.length - 1) (d + 1) (L.drop (d + 1))

/-- The per-line `(tokens, indent)` data of a parsed document (the sequence
the build pass of `parse_document` runs over). -/
def lineData (doc : ParsedDocument) : List (List Token × Nat) :=
  doc.tokens.zip doc.line_indents

/-- The indentation of line `m` in the per-line data `L` (0 out of range). -/
def getIndent (L : List (List Token × Nat)) (m : Nat) : Nat :=
  match L[m]? with
  | some p => p.2
  | none => 0

/-- Whether line `m` is an "event" for an open function of header
indentation `fI`: a significant line that either closes the body
(indentation at most `fI`) or is a recognized nested function header. -/
def lineEventAt (L : List (List Token × Nat)) (m : Nat) (fI : Nat) : Bool :=
  match L[m]? with
  | none => false
  | some p =>
    !(_significant_tokens p.1).isEmpty &&
      (decide (p.2 ≤ fI) || recognizedSig (_significant_tokens p.1))

/-- Invariant of the build pass of `parse_document` after the first `idx`
lines have been processed: the current function (if any) is a table entry
registered at an earlier line with no event since its header, and every
table entry other than the current function already carries its final
`end_line`, equal to the spec-side scan `bodyEndSpec`. -/
structure ParseInv (L : List (List Token × Nat)) (st : PState) (idx : Nat) : Prop where
  cur_ok : ∀ nm fI, st.cur = some (nm, fI) →
    ∃ fd, lookupA nm st.functions = some fd ∧ fd.name = nm ∧ fd.line < idx ∧
      fI = getIndent L fd.line ∧
      ∀ m, fd.line < m → m < idx → lineEventAt L m fI = false
  tbl_ok : ∀ nm fd, lookupA nm st.functions = some fd →
    fd.name = nm ∧ fd.line < idx ∧
    ((∃ fI, st.cur = some (nm, fI)) ∨
      fd.end_line = bodyEndSpec L fd.line (getIndent L fd.line))

/-- The claim's original reading of a body extent: the last line of the
contiguous block of lines following line `d` whose indentation strictly
exceeds `dI` (scanning `inds = indents after line d` from line `m = d + 1`). -/
def contigGo (dI : Nat) : Nat → List Nat → Nat
  | m, [] => m - 1
  | m, i :: rs => if dI < i then contigGo dI (m + 1) rs else m - 1

/-- The last line of the contiguous strictly-more-indented block after the
definition line `d`, per the claim's wording for `bodyEndLine`. -/
def contigBlockEnd (indents : List Nat) (d dI : Nat) : Nat :=
  contigGo dI (d + 1) (indents.drop (d + 1))

/-- The declaration events a line contributes to the variable table when the
enclosing function is `cur_name`: a simple assignment (at least three
significant tokens, the first an identifier and the second the `=` operator)
yields one `(key, VarDef)` event. -/
def assignEvents (sig : List Token) (lineno : Nat) (cur_name : Option (List Char)) :
    List (List Char × VarDef) :=
  if sig.length < 3 then []
  else
    match sig with
    | t0 :: t1 :: _ =>
      if t0.type = TokenType.IDENTIFIER ∧ t1.type = TokenType.OPERATOR ∧ t1.value = ['='] then
        [((match cur_name with
           | some n => n ++ ':' :: t0.value
           | none => t0.value),
          ⟨t0.value, lineno, t0.col,
            match cur_name with
            | some n => n
            | none => "global".toList⟩)]
      else []
    | _ => []

/-- The parameter pre-registration events of a recognized function header. -/
def paramEvents (fd : FuncDef) : List (List Char × VarDef) :=
  fd.params.map (fun p => (fd.name ++ ':' :: p.name, ⟨p.name, p.line, p.col, fd.name⟩))

/-- The transition of the enclosing-function state on a significant line
whose indentation is `ind`: an open function is left when `ind` does not
exceed its header indentation. -/
def stepCur (cur : Option (List Char × Nat)) (ind : Nat) : Option (List Char × Nat) :=
  match cur with
  | none => none
  | some (nm, fI) => if ind ≤ fI then none else some (nm, fI)

/-- The ordered list of declaration events of a document: for each line in
order, the parameter events of a recognized function header, or the
assignment event of a simple assignment, under the enclosing-function state
the build pass maintains (entered on a recognized header, left when a
significant line at or below the header's indentation is reached). -/
def varEventsLoop (cur : Option (List Char × Nat)) (lineno : Nat) :
    List (List Token × Nat) → List (List Char × VarDef)
  | [] => []
  | (toks, ind) :: rest =>
    if (_significant_tokens toks).isEmpty then varEventsLoop cur (lineno + 1) rest
    else
      match _significant_tokens toks with
      | t0 :: _ =>
        if t0.type = TokenType.KEYWORD ∧ t0.value = kwFunc then
          match _parse_func_header (_significant_tokens toks) lineno ind with
          | some fd => paramEvents fd ++ varEventsLoop (some (fd.name, ind)) (lineno + 1) rest
          | none =>
            assignEvents (_significant_tokens toks) lineno
              ((stepCur cur ind).map Prod.fst) ++
            varEventsLoop (stepCur cur ind) (lineno + 1) rest
        else
          assignEvents (_significant_tokens toks) lineno
            ((stepCur cur ind).map Prod.fst) ++
          varEventsLoop (stepCur cur ind) (lineno + 1) rest
      | [] => varEventsLoop (stepCur cur ind) (lineno + 1) rest

/-- The declaration events of a whole parsed document. -/
def varEvents (doc : ParsedDocument) : List (List Char × VarDef) :=
  varEventsLoop none 0 (lineData doc)

/-- The claim's shape of an assignment line to `name`: the first significant
token is the identifier `name` and the second is the `=` operator. -/
def isAssignShapeFor (name : List Char) (sig : List Token) : Bool :=
  match sig with
  | t0 :: t1 :: _ =>
    decide (t0.type = TokenType.IDENTIFIER) && decide (t0.value = name) &&
    decide (t1.type = TokenType.OPERATOR) && decide (t1.value = ['='])
  | _ => false

/-- The qualifying occurrences of the undefined-call check, per the claim's
words: identifier tokens whose next non-whitespace token on the line is a
paren-open and whose text is not a recorded function, builtin, or keyword;
listed per line in order, with the line number. -/
def undefOccurrences (doc : ParsedDocument) : List (Nat × Token) :=
  (doc.tokens.enum.map (fun p =>
    p.2.enum.filterMap (fun q =>
      if undefCallCond doc.functions p.2 q.1 q.2 then some (p.1, q.2) else none))).flatten

/-- The nine token kinds the semantic-token encoder emits entries for. -/
def EMITTED_KINDS : List TokenType :=
  [.KEYWORD, .BUILTIN, .CONSTANT, .LOGICAL_OP, .IDENTIFIER, .NUMBER, .STRING, .COMMENT,
   .OPERATOR]

/-- The tokens of a document that produce semantic-token quintuples, in
emission order. -/
def emittedTokens (doc : ParsedDocument) : List Token :=
  doc.tokens.flatten.filter (fun t => !_SKIP t.type)

/-- The quintuple emitted for one token given the line/column of the
previously emitted token. -/
def quintOf (func_names param_names : List (List Char)) (prev : Nat × Nat) (t : Token) :
    List Int :=
  [(t.line : Int) - prev.1,
   if (t.line : Int) - prev.1 > 0 then (t.col : Int) else (t.col : Int) - prev.2,
   (t.end_col : Int) - t.col,
   (semTypeIdx func_names param_names t
     ((_TYPE_MAP t.type).getD 0) : Int),
   0]

/-- The flat data array as a concatenation of per-token quintuples over a
list of emitted tokens. -/
def quintsFrom (func_names param_names : List (List Char)) (prev : Nat × Nat) :
    List Token → List Int
  | [] => []
  | t :: ts =>
    quintOf func_names param_names prev t ++
      quintsFrom func_names param_names (t.line, t.col) ts

/-! ## Lemmas: the lexer -/

theorem dropWhile_cons_false {α : Type} {p : α → Bool} {l xs : List α} {x : α}
    (h : l.dropWhile p = x :: xs) : p x = false := by
  induction l with
  | nil => simp [List.dropWhile] at h
  | cons a as ih =>
    rw [List.dropWhile_cons] at h
    by_cases ha : p a
    · simp [ha] at h
      exact ih h
    · simp [ha] at h
      rw [← h.1]
      simp [ha]

theorem length_dropWhile_le {α : Type} (p : α → Bool) (l : List α) :
    (l.dropWhile p).length ≤ l.length := by
  induction l with
  | nil => simp [List.dropWhile]
  | cons a as ih =>
    rw [List.dropWhile_cons]
    by_cases h : p a
    · simp only [h, if_true, List.length_cons]
      omega
    · simp [h]

theorem mem_takeWhile_sat {α : Type} {p : α → Bool} {l : List α} {x : α}
    (h : x ∈ l.takeWhile p) : p x = true := by
  induction l with
  | nil => simp [List.takeWhile] at h
  | cons a as ih =>
    rw [List.takeWhile_cons] at h
    by_cases ha : p a
    · simp [ha] at h
      rcases h with h | h
      · rw [h]; exact ha
      · exact ih h
    · simp [ha] at h

/-- Scanning invariant of `tokenize_go`: with enough fuel, the concatenated
token values reproduce the scanned suffix exactly, and the tokens tile it
contiguously starting at column `i`. -/
theorem tokenize_go_spec (line_no : Nat) :
    ∀ fuel rest i, rest.length ≤ fuel →
      ((tokenize_go line_no fuel rest i).map Token.value).flatten = rest ∧
      chainFrom i (tokenize_go line_no fuel rest i) := by
  intro fuel
  induction fuel with
  | zero =>
    intro rest i h
    have : rest = [] := List.length_eq_zero.mp (Nat.le_zero.mp h)
    subst this
    simp [tokenize_go, chainFrom]
  | succ fuel ih =>
    intro rest i h
    match rest with
    | [] => simp [tokenize_go, chainFrom]
    | c :: rest =>
      have hrest : rest.length ≤ fuel := by
        simpa [Nat.succ_le_succ_iff] using h
      by_cases h1 : c = '#'
      · simp [tokenize_go, h1, chainFrom]
      · by_cases h2 : isSpaceTab c
        · have hdw : (c :: rest).dropWhile isSpaceTab = rest.dropWhile isSpaceTab := by
            simp [List.dropWhile_cons, h2]
          have hlen : ((c :: rest).dropWhile isSpaceTab).length ≤ fuel := by
            rw [hdw]
            exact le_trans (length_dropWhile_le _ _) hrest
          obtain ⟨ihj, ihc⟩ := ih ((c :: rest).dropWhile isSpaceTab)
            (i + ((c :: rest).takeWhile isSpaceTab).length) hlen
          constructor
          · simp only [tokenize_go, if_neg h1, if_pos h2, List.map_cons, List.flatten_cons]
            rw [ihj, List.takeWhile_append_dropWhile]
          · simp only [tokenize_go, if_neg h1, if_pos h2]
            exact ⟨rfl, rfl, ihc⟩
        · by_cases h3 : c = '"'
          · rcases hstr : rest.dropWhile (fun d => decide (d ≠ '"')) with _ | ⟨d, ds⟩
            · have htw : rest.takeWhile (fun d => decide (d ≠ '"')) = rest := by
                have := List.takeWhile_append_dropWhile
                  (p := fun d => decide (d ≠ '"')) (l := rest)
                rw [hstr, List.append_nil] at this
                exact this
              constructor
              · simp only [tokenize_go, if_neg h1, if_neg h2, if_pos h3, hstr,
                  List.map_cons, List.map_nil, List.flatten_cons, List.flatten_nil,
                  List.append_nil]
                rw [htw]
              · simp only [tokenize_go, if_neg h1, if_neg h2, if_pos h3, hstr]
                exact ⟨rfl, rfl, trivial⟩
            · have hd : d = '"' := by
                have := dropWhile_cons_false hstr
                simpa using this
              subst hd
              have hsplit : rest.takeWhile (fun d => decide (d ≠ '"')) ++ '"' :: ds = rest := by
                have := List.takeWhile_append_dropWhile
                  (p := fun d => decide (d ≠ '"')) (l := rest)
                rw [hstr] at this
                exact this
              have hlds : ds.length ≤ fuel := by
                have h1l : (rest.takeWhile (fun d => decide (d ≠ '"'))).length + (ds.length + 1)
                    = rest.length := by
                  conv_rhs => rw [← hsplit]
                  simp [List.length_append]
                omega
              obtain ⟨ihj, ihc⟩ := ih ds
                (i + (c :: (rest.takeWhile (fun d => decide (d ≠ '"')) ++ ['"'])).length) hlds
              constructor
              · simp only [tokenize_go, if_neg h1, if_neg h2, if_pos h3, hstr,
                  List.map_cons, List.flatten_cons]
                rw [ihj]
                simp only [List.cons_append, List.append_assoc, List.singleton_append]
                rw [List.cons.injEq]
                exact ⟨rfl, hsplit⟩
              · simp only [tokenize_go, if_neg h1, if_neg h2, if_pos h3, hstr]
                exact ⟨rfl, rfl, ihc⟩
          · by_cases h4 : digitCh c
            · have hdw : (c :: rest).dropWhile digitCh = rest.dropWhile digitCh := by
                simp [List.dropWhile_cons, h4]
              have hlen : ((c :: rest).dropWhile digitCh).length ≤ fuel := by
                rw [hdw]
                exact le_trans (length_dropWhile_le _ _) hrest
              obtain ⟨ihj, ihc⟩ := ih ((c :: rest).dropWhile digitCh)
                (i + ((c :: rest).takeWhile digitCh).length) hlen
              constructor
              · simp only [tokenize_go, if_neg h1, if_neg h2, if_neg h3, if_pos h4,
                  List.map_cons, List.flatten_cons]
                rw [ihj, List.takeWhile_append_dropWhile]
              · simp only [tokenize_go, if_neg h1, if_neg h2, if_neg h3, if_pos h4]
                exact ⟨rfl, rfl, ihc⟩
            · by_cases h5 : identStartCh c
              · have hlen : (rest.dropWhile identPartCh).length ≤ fuel :=
                  le_trans (length_dropWhile_le _ _) hrest
                obtain ⟨ihj, ihc⟩ := ih (rest.dropWhile identPartCh)
                  (i + (c :: rest.takeWhile identPartCh).length) hlen
                constructor
                · simp only [tokenize_go, if_neg h1, if_neg h2, if_neg h3, if_neg h4,
                    if_pos h5, List.map_cons, List.flatten_cons]
                  rw [ihj]
                  simp only [List.cons_append]
                  rw [List.cons.injEq]
                  exact ⟨rfl, List.takeWhile_append_dropWhile _ _⟩
                · simp only [tokenize_go, if_neg h1, if_neg h2, if_neg h3, if_neg h4,
                    if_pos h5]
                  exact ⟨rfl, rfl, ihc⟩
              · match rest, hrest with
                | [], _ =>
                  simp [tokenize_go, h1, h2, h3, h4, h5, chainFrom]
                | c2 :: rest2, hrest =>
                  by_cases h6 : [c, c2] ∈ OPERATORS_DOUBLE
                  · have hlen : rest2.length ≤ fuel := by
                      have := hrest
                      simp only [List.length_cons] at this
                      omega
                    obtain ⟨ihj, ihc⟩ := ih rest2 (i + 2) hlen
                    constructor
                    · simp only [tokenize_go, if_neg h1, if_neg h2, if_neg h3, if_neg h4,
                        if_neg h5, if_pos h6, List.map_cons, List.flatten_cons]
                      rw [ihj]
                      rfl
                    · simp only [tokenize_go, if_neg h1, if_neg h2, if_neg h3, if_neg h4,
                        if_neg h5, if_pos h6]
                      exact ⟨rfl, rfl, ihc⟩
                  · obtain ⟨ihj, ihc⟩ := ih (c2 :: rest2) (i + 1) hrest
                    constructor
                    · simp only [tokenize_go, if_neg h1, if_neg h2, if_neg h3, if_neg h4,
                        if_neg h5, if_neg h6, List.map_cons, List.flatten_cons]
                      rw [ihj]
                      rfl
                    · simp only [tokenize_go, if_neg h1, if_neg h2, if_neg h3, if_neg h4,
                        if_neg h5, if_neg h6]
                      exact ⟨rfl, rfl, ihc⟩

/-- C1: for every line text and line number, concatenating the value fields
of the tokens of `tokenize_line` in order reproduces the line exactly
(whitespace and comments included), and the tokens are contiguous and
non-overlapping: the first token starts at column 0, each token's start
column equals the previous token's (exclusive) end column, and every token's
`end_col` equals its start column plus its length. -/
theorem tokenize_line_round_trip_contiguous (text : List Char) (line_no : Nat) :
    ((tokenize_line text line_no).map Token.value).flatten = text ∧
    chainFrom 0 (tokenize_line text line_no) :=
  tokenize_go_spec line_no text.length text 0 (le_refl _)

/-! ## Lemmas: the document builder's shape -/

/-- C2: `parse_document` is a total function (it is defined for every input
by construction); for every input its per-line token matrix and per-line
indentation list have exactly one entry per line of the document, and for
empty input the document consists of exactly one empty line. -/
theorem parse_document_shape_total :
    (∀ source : List Char,
      (parse_document source).tokens.length = (parse_document source).lines.length ∧
      (parse_document source).line_indents.length = (parse_document source).lines.length) ∧
    (parse_document []).lines = [[]] := by
  constructor
  · intro source
    constructor
    · simp [parse_document]
    · simp [parse_document]
  · rfl

/-! ## Lemmas: the dangling-elif/else check -/

theorem elifPrefix_shapes (line : List Char) (t : List Char)
    (h : pyStrip line = "अथवा_यदि".toList ++ t) :
    blankOrComment (pyStrip line) = false ∧
    ("यदि".toList.isPrefixOf (pyStrip line)) = false ∧
    ("अन्यथा".toList.isPrefixOf (pyStrip line)) = false := by
  rw [h]
  exact ⟨by simp [blankOrComment, List.isPrefixOf], by simp [List.isPrefixOf],
    by simp [List.isPrefixOf]⟩

theorem elsePrefix_shapes (line : List Char) (t : List Char)
    (h : pyStrip line = "अन्यथा".toList ++ t) :
    blankOrComment (pyStrip line) = false ∧
    ("यदि".toList.isPrefixOf (pyStrip line)) = false ∧
    ("अथवा_यदि".toList.isPrefixOf (pyStrip line)) = false := by
  rw [h]
  exact ⟨by simp [blankOrComment, List.isPrefixOf], by simp [List.isPrefixOf],
    by simp [List.isPrefixOf]⟩

/-- C5: behaviour of the dangling-elif/else check.  An elif line (stripped
text starting with `अथवा_यदि`) whose indentation has no open `if` recorded
emits exactly one error on that line and leaves the table unchanged; a valid
elif refreshes the entry at its indentation; an else line (stripped text
starting with `अन्यथा` and ending with `:`) with no open `if` emits exactly
one error, and a valid else removes the entry; any other non-blank,
non-comment statement emits nothing and removes only its own indentation's
entry; refreshing or removing an entry leaves every other indentation's
entry unchanged.  Concretely, an `elif` at indentation 0 with no preceding
`if` produces exactly one orphaned-elif error on that line. -/
theorem orphan_elif_else_check_behavior :
    (∀ (st : Nat → Option Nat) (lineno : Nat) (line : List Char) (indent : Nat),
      ("अथवा_यदि".toList.isPrefixOf (pyStrip line) → st indent = none →
        orphanStep st lineno line indent =
          ([⟨lineno, 0, line.length, .orphanElif, .error⟩], st)) ∧
      ("अथवा_यदि".toList.isPrefixOf (pyStrip line) → st indent ≠ none →
        orphanStep st lineno line indent = ([], setO st indent lineno)) ∧
      ("अन्यथा".toList.isPrefixOf (pyStrip line) → endsColon (pyStrip line) →
        st indent = none →
        orphanStep st lineno line indent =
          ([⟨lineno, 0, line.length, .orphanElse, .error⟩], st)) ∧
      ("अन्यथा".toList.isPrefixOf (pyStrip line) → endsColon (pyStrip line) →
        st indent ≠ none →
        orphanStep st lineno line indent = ([], eraseO st indent)) ∧
      (¬ blankOrComment (pyStrip line) →
        ¬ ("यदि".toList.isPrefixOf (pyStrip line) ∧ endsColon (pyStrip line)) →
        ¬ "अथवा_यदि".toList.isPrefixOf (pyStrip line) →
        ¬ ("अन्यथा".toList.isPrefixOf (pyStrip line) ∧ endsColon (pyStrip line)) →
        orphanStep st lineno line indent = ([], eraseO st indent)) ∧
      (∀ j v, j ≠ indent → setO st indent v j = st j ∧ eraseO st indent j = st j)) ∧
    _check_orphaned_elif_else (parse_document "अथवा_यदि x:".toList) =
      [⟨0, 0, 11, .orphanElif, .error⟩] := by
  constructor
  · intro st lineno line indent
    refine ⟨?_, ?_, ?_, ?_, ?_, ?_⟩
    · intro hpre hnone
      obtain ⟨t, ht⟩ := List.isPrefixOf_iff_prefix.mp hpre
      obtain ⟨hbc, hyadi, -⟩ := elifPrefix_shapes line t ht.symm
      simp only [orphanStep]
      rw [if_neg (by rw [hbc]; exact Bool.false_ne_true),
        if_neg (fun hc => by rw [hyadi] at hc; exact absurd hc.1 (by decide)),
        if_pos hpre, if_pos hnone]
    · intro hpre hsome
      obtain ⟨t, ht⟩ := List.isPrefixOf_iff_prefix.mp hpre
      obtain ⟨hbc, hyadi, -⟩ := elifPrefix_shapes line t ht.symm
      simp only [orphanStep]
      rw [if_neg (by rw [hbc]; exact Bool.false_ne_true),
        if_neg (fun hc => by rw [hyadi] at hc; exact absurd hc.1 (by decide)),
        if_pos hpre, if_neg hsome]
    · intro hpre hcolon hnone
      obtain ⟨t, ht⟩ := List.isPrefixOf_iff_prefix.mp hpre
      obtain ⟨hbc, hyadi, helif⟩ := elsePrefix_shapes line t ht.symm
      simp only [orphanStep]
      rw [if_neg (by rw [hbc]; exact Bool.false_ne_true),
        if_neg (fun hc => by rw [hyadi] at hc; exact absurd hc.1 (by decide)),
        if_neg (by rw [helif]; exact Bool.false_ne_true),
        if_pos ⟨hpre, hcolon⟩, if_pos hnone]
    · intro hpre hcolon hsome
      obtain ⟨t, ht⟩ := List.isPrefixOf_iff_prefix.mp hpre
      obtain ⟨hbc, hyadi, helif⟩ := elsePrefix_shapes line t ht.symm
      simp only [orphanStep]
      rw [if_neg (by rw [hbc]; exact Bool.false_ne_true),
        if_neg (fun hc => by rw [hyadi] at hc; exact absurd hc.1 (by decide)),
        if_neg (by rw [helif]; exact Bool.false_ne_true),
        if_pos ⟨hpre, hcolon⟩, if_neg hsome]
    · intro hbc hyadi helif helse
      simp only [orphanStep]
      rw [if_neg hbc, if_neg hyadi, if_neg helif, if_neg helse]
    · intro j v hj
      exact ⟨by simp [setO, hj], by simp [eraseO, hj]⟩
  · decide

/-- Witness for the dangling-elif/else behaviour theorem: instantiating it
on an elif line at indentation 0 with the empty open-`if` table emits the
orphaned-elif error and leaves the table unchanged. -/
theorem orphan_elif_else_check_behavior_witness :
    orphanStep (fun _ => none) 5 "अथवा_यदि x:".toList 0 =
      ([⟨5, 0, 11, .orphanElif, .error⟩], fun _ => none) :=
  ((orphan_elif_else_check_behavior.1 (fun _ => none) 5 "अथवा_यदि x:".toList 0).1
    (by decide) rfl)

/-! ## Lemmas: delimiter balance -/

/-- The running-depth fold of `_check_unmatched_parens` computes the
differences of the open/close token counts on the line. -/
theorem parenDepths_eq_counts (toks : List Token) :
    parenDepths toks =
      ((toks.countP (fun t => decide (t.type = TokenType.PAREN_OPEN)) : Int) -
        (toks.countP (fun t => decide (t.type = TokenType.PAREN_CLOSE)) : Int),
       (toks.countP (fun t => decide (t.type = TokenType.BRACKET_OPEN)) : Int) -
        (toks.countP (fun t => decide (t.type = TokenType.BRACKET_CLOSE)) : Int)) := by
  have main : ∀ (toks : List Token) (d : Int × Int),
      toks.foldl
        (fun d t =>
          if t.type = TokenType.PAREN_OPEN then (d.1 + 1, d.2)
          else if t.type = TokenType.PAREN_CLOSE then (d.1 - 1, d.2)
          else if t.type = TokenType.BRACKET_OPEN then (d.1, d.2 + 1)
          else if t.type = TokenType.BRACKET_CLOSE then (d.1, d.2 - 1)
          else d)
        d =
      (d.1 + (toks.countP (fun t => decide (t.type = TokenType.PAREN_OPEN)) : Int) -
        (toks.countP (fun t => decide (t.type = TokenType.PAREN_CLOSE)) : Int),
       d.2 + (toks.countP (fun t => decide (t.type = TokenType.BRACKET_OPEN)) : Int) -
        (toks.countP (fun t => decide (t.type = TokenType.BRACKET_CLOSE)) : Int)) := by
    intro toks
    induction toks with
    | nil => intro d; simp
    | cons t ts ih =>
      intro d
      rw [List.foldl_cons, ih]
      by_cases h1 : t.type = TokenType.PAREN_OPEN
      · simp only [List.countP_cons, h1, if_pos rfl]
        simp [h1] <;> omega
      · by_cases h2 : t.type = TokenType.PAREN_CLOSE
        · simp only [List.countP_cons]
          simp [h1, h2] <;> omega
        · by_cases h3 : t.type = TokenType.BRACKET_OPEN
          · simp only [List.countP_cons]
            simp [h1, h2, h3] <;> omega
          · by_cases h4 : t.type = TokenType.BRACKET_CLOSE
            · simp only [List.countP_cons]
              simp [h1, h2, h3, h4] <;> omega
            · simp only [List.countP_cons]
              simp [h1, h2, h3, h4]
  rw [parenDepths, main]
  simp

/-- C6: the per-line diagnostics of the delimiter-balance check: an
unmatched-parentheses error is emitted for a line if and only if its counts
of paren-open and paren-close tokens differ, and an unmatched-brackets error
if and only if its bracket-open and bracket-close counts differ; the two
checks are independent (both may fire, parentheses first), and the check is
per line, a flat concatenation of the per-line results.  Concretely, the
line `x = f(1, 2` yields exactly one unmatched-parentheses error under the
full `analyze` pass and no bracket error. -/
theorem unmatched_delimiters_per_line :
    (∀ (lineno : Nat) (line : List Char) (toks : List Token),
      unmatchedLine lineno line toks =
        (if toks.countP (fun t => decide (t.type = TokenType.PAREN_OPEN)) ≠
            toks.countP (fun t => decide (t.type = TokenType.PAREN_CLOSE)) then
          [⟨lineno, 0, line.length, .unmatchedParens, .error⟩]
        else []) ++
        (if toks.countP (fun t => decide (t.type = TokenType.BRACKET_OPEN)) ≠
            toks.countP (fun t => decide (t.type = TokenType.BRACKET_CLOSE)) then
          [⟨lineno, 0, line.length, .unmatchedBrackets, .error⟩]
        else [])) ∧
    (∀ doc : ParsedDocument,
      _check_unmatched_parens doc =
        ((doc.lines.zip doc.tokens).enum.map
          (fun p => unmatchedLine p.1 p.2.1 p.2.2)).flatten) ∧
    (analyze (parse_document "x = f(1, 2".toList)).countP
        (fun d => decide (d.message = Msg.unmatchedParens)) = 1 ∧
    (analyze (parse_document "x = f(1, 2".toList)).countP
        (fun d => decide (d.message = Msg.unmatchedBrackets)) = 0 := by
  refine ⟨?_, fun _ => rfl, by decide, by decide⟩
  intro lineno line toks
  rw [unmatchedLine, parenDepths_eq_counts]
  congr 1
  · congr 1
    simp [sub_ne_zero]
  · congr 1
    simp [sub_ne_zero]

/-! ## Lemmas: the undefined-call check -/

/-- C7: the undefined-call check emits exactly one warning per qualifying
identifier occurrence (identifier token whose next non-whitespace token on
the line is a paren-open and whose text is not a key of the function table,
not a builtin name, and not a keyword), spanning exactly the identifier's
`[startColumn, endColumn)` columns, and no other warnings.  Concretely, the
document `g(1)` produces exactly one undefined-function warning under the
full `analyze` pass. -/
theorem undefined_call_warnings_exact :
    (∀ doc : ParsedDocument,
      _check_undefined_references doc =
        (undefOccurrences doc).map
          (fun p => ⟨p.1, p.2.col, p.2.end_col, .undefinedFunction p.2.value, .warning⟩)) ∧
    (analyze (parse_document "g(1)".toList)).countP
      (fun d => match d.message with | .undefinedFunction _ => true | _ => false) = 1 := by
  constructor
  · intro doc
    unfold _check_undefined_references undefOccurrences
    rw [List.map_flatten]
    congr 1
    rw [List.map_map]
    congr 1
    funext p
    simp only [Function.comp_apply]
    rw [List.map_filterMap]
    unfold undefLine
    congr 1
    funext q
    by_cases hc : undefCallCond doc.functions p.2 q.1 q.2
    · simp [hc]
    · simp [hc]
  · decide

/-! ## Lemmas: the semantic-token encoder -/

theorem notSkip_typeMap (tt : TokenType) (h : _SKIP tt = false) : (_TYPE_MAP tt).isSome := by
  cases tt <;> simp_all [_SKIP, _TYPE_MAP]

theorem emitted_iff_notSkip (tt : TokenType) : (tt ∈ EMITTED_KINDS) ↔ _SKIP tt = false := by
  cases tt <;> decide

theorem semTokStep_skip (fn pn : List (List Char)) (st : SemState) (t : Token)
    (h : _SKIP t.type = true) : semTokStep fn pn st t = st := by
  simp [semTokStep, h]

theorem semTokStep_emit (fn pn : List (List Char)) (st : SemState) (t : Token)
    (h : _SKIP t.type = false) :
    semTokStep fn pn st t =
      ⟨st.data ++ quintOf fn pn (st.prev_line, st.prev_col) t, t.line, t.col⟩ := by
  obtain ⟨k, hk⟩ := Option.isSome_iff_exists.mp (notSkip_typeMap _ h)
  simp [semTokStep, h, hk, quintOf]

/-- The token fold of the encoder appends the quintuples of exactly the
non-skipped tokens, threading the previous emitted token's position. -/
theorem foldl_semTok_data (fn pn : List (List Char)) :
    ∀ (ts : List Token) (st : SemState),
      (ts.foldl (semTokStep fn pn) st).data =
        st.data ++
          quintsFrom fn pn (st.prev_line, st.prev_col)
            (ts.filter (fun t => !_SKIP t.type)) := by
  intro ts
  induction ts with
  | nil => intro st; simp [quintsFrom]
  | cons t ts ih =>
    intro st
    by_cases h : _SKIP t.type
    · rw [List.foldl_cons, semTokStep_skip fn pn st t h]
      rw [ih st]
      simp [List.filter_cons, h]
    · have hf : _SKIP t.type = false := by simpa using h
      rw [List.foldl_cons, semTokStep_emit fn pn st t hf]
      rw [ih]
      simp [List.filter_cons, hf, quintsFrom, List.append_assoc]

/-- The encoder's output over a whole document, as the quintuples of its
emitted tokens in order. -/
theorem provide_eq_quints (doc : ParsedDocument) :
    provide_semantic_tokens doc =
      quintsFrom (funcNamesOf doc) (paramNamesOf doc) (0, 0) (emittedTokens doc) := by
  unfold provide_semantic_tokens emittedTokens
  rw [← List.foldl_flatten]
  rw [foldl_semTok_data]
  rfl

theorem flatten_map_filter (p : Token → Bool) (l : List (List Token)) :
    (l.map (fun x => x.filter p)).flatten = l.flatten.filter p := by
  induction l with
  | nil => rfl
  | cons x xs ih =>
    rw [List.map_cons, List.flatten_cons, ih, List.flatten_cons, List.filter_append]

/-- C10: the semantic-token encoder emits no quintuple for whitespace,
paren-open, paren-close, bracket-open, bracket-close, comma, colon, or
unknown tokens: filtering those token kinds out of the document beforehand
leaves the output unchanged, and the length of the output is exactly five
integers per token of the nine emitted kinds (keyword, builtin, constant,
logical-operator, identifier, number, string, comment, operator). -/
theorem semantic_tokens_skip_kinds (doc : ParsedDocument) :
    provide_semantic_tokens doc =
      provide_semantic_tokens
        { doc with tokens := doc.tokens.map (fun l => l.filter (fun t => !_SKIP t.type)) } ∧
    (provide_semantic_tokens doc).length =
      5 * doc.tokens.flatten.countP (fun t => decide (t.type ∈ EMITTED_KINDS)) := by
  constructor
  · rw [provide_eq_quints, provide_eq_quints]
    have he : emittedTokens
        { doc with tokens := doc.tokens.map (fun l => l.filter (fun t => !_SKIP t.type)) } =
        emittedTokens doc := by
      unfold emittedTokens
      rw [show ({ doc with
            tokens := doc.tokens.map (fun l => l.filter (fun t => !_SKIP t.type)) } :
          ParsedDocument).tokens =
          doc.tokens.map (fun l => l.filter (fun t => !_SKIP t.type)) from rfl]
      rw [flatten_map_filter, List.filter_filter]
      congr 1
      funext t
      cases h : _SKIP t.type <;> simp [h]
    rw [he]
    rfl
  · rw [provide_eq_quints]
    have hlen : ∀ (ts : List Token) (prev : Nat × Nat),
        (quintsFrom (funcNamesOf doc) (paramNamesOf doc) prev ts).length = 5 * ts.length := by
      intro ts
      induction ts with
      | nil => intro prev; simp [quintsFrom]
      | cons t ts ih =>
        intro prev
        simp [quintsFrom, quintOf, ih]
        ring
    rw [hlen]
    unfold emittedTokens
    congr 1
    rw [← List.countP_eq_length_filter]
    apply List.countP_congr
    intro t _
    simp [emitted_iff_notSkip t.type]

theorem quintOf_length (fn pn : List (List Char)) (prev : Nat × Nat) (t : Token) :
    (quintOf fn pn prev t).length = 5 := rfl

/-- Position of the quintuple of the `(i+1)`-st emitted token within the
flat data array: it follows the quintuples of the first `i+1` tokens and is
computed relative to the `i`-th token's line and start column. -/
theorem quintsFrom_drop_pair (fn pn : List (List Char)) :
    ∀ (i : Nat) (ts : List Token) (prev : Nat × Nat) (a b : Token),
      ts[i]? = some a → ts[i + 1]? = some b →
      (quintsFrom fn pn prev ts).drop (5 * (i + 1)) =
        quintOf fn pn (a.line, a.col) b ++
          quintsFrom fn pn (b.line, b.col) (ts.drop (i + 2)) := by
  intro i
  induction i with
  | zero =>
    intro ts prev a b h1 h2
    match ts with
    | [] => simp at h1
    | [t] => simp at h2
    | t :: t2 :: tl =>
      have ha : t = a := by simpa using h1
      have hb : t2 = b := by simpa using h2
      subst ha
      subst hb
      show (quintOf fn pn prev t ++
        (quintOf fn pn (t.line, t.col) t2 ++ quintsFrom fn pn (t2.line, t2.col) tl)).drop 5 = _
      rw [show (5 : Nat) = (quintOf fn pn prev t).length from rfl, List.drop_left]
      rfl
  | succ i ih =>
    intro ts prev a b h1 h2
    match ts with
    | [] => simp at h1
    | t :: tl =>
      have h1' : tl[i]? = some a := by simpa using h1
      have h2' : tl[i + 1]? = some b := by simpa using h2
      show (quintOf fn pn prev t ++ quintsFrom fn pn (t.line, t.col) tl).drop (5 * (i + 2)) = _
      have harith : 5 * (i + 2) = (quintOf fn pn prev t).length + 5 * (i + 1) := by
        rw [quintOf_length]
        ring
      rw [harith, List.drop_append, ih tl (t.line, t.col) a b h1' h2']
      rfl

/-- C8 counterexample: in the document `ab   cd` the two emitted tokens are
the identifiers `ab` (columns 0–2) and `cd` (columns 5–7), so token B starts
exactly three columns after token A ends; but the encoder emits delta-column
5 for B (relative to A's *start* column), not the three-column end-to-start
gap the claim states. -/
theorem semantic_tokens_delta_gap_cex :
    emittedTokens (parse_document "ab   cd".toList) =
      [⟨.IDENTIFIER, ['a', 'b'], 0, 0, 2⟩, ⟨.IDENTIFIER, ['c', 'd'], 0, 5, 7⟩] ∧
    ((5 : Nat) - 2 = 3) ∧
    provide_semantic_tokens (parse_document "ab   cd".toList) =
      [0, 0, 2, 2, 0, 0, 5, 2, 2, 0] ∧
    (provide_semantic_tokens (parse_document "ab   cd".toList))[6]? = some 5 ∧
    (5 : Int) ≠ 3 := by
  refine ⟨by decide, rfl, by decide, by decide, by decide⟩

/-- C8 (amended): for two consecutively emitted tokens A then B, the encoder
emits for B a delta-column equal to the difference of the *start* columns of
B and A when B is on the same line (that is, the end-to-start gap plus A's
length, not the gap alone), and B's absolute start column when B is on a
later line (in particular for the first emitted token of the next line). -/
theorem semantic_tokens_delta_encoding (doc : ParsedDocument) (i : Nat) (a b : Token)
    (h1 : (emittedTokens doc)[i]? = some a) (h2 : (emittedTokens doc)[i + 1]? = some b) :
    (b.line = a.line →
      (provide_semantic_tokens doc)[5 * (i + 1) + 1]? = some ((b.col : Int) - a.col)) ∧
    (a.line < b.line →
      (provide_semantic_tokens doc)[5 * (i + 1) + 1]? = some (b.col : Int)) := by
  rw [provide_eq_quints]
  have hd := quintsFrom_drop_pair (funcNamesOf doc) (paramNamesOf doc) i
    (emittedTokens doc) (0, 0) a b h1 h2
  have hidx : (quintsFrom (funcNamesOf doc) (paramNamesOf doc) (0, 0)
      (emittedTokens doc))[5 * (i + 1) + 1]? =
      ((quintsFrom (funcNamesOf doc) (paramNamesOf doc) (0, 0)
        (emittedTokens doc)).drop (5 * (i + 1)))[1]? := by
    rw [List.getElem?_drop]
  rw [hidx, hd]
  have hq : (quintOf (funcNamesOf doc) (paramNamesOf doc) (a.line, a.col) b ++
      quintsFrom (funcNamesOf doc) (paramNamesOf doc) (b.line, b.col)
        ((emittedTokens doc).drop (i + 2)))[1]? =
      some (if (b.line : Int) - a.line > 0 then (b.col : Int) else (b.col : Int) - a.col) := by
    rw [List.getElem?_append, if_pos (by rw [quintOf_length]; omega)]
    rfl
  rw [hq]
  constructor
  · intro hline
    rw [hline]
    simp
  · intro hlt
    have hpos : (0 : Int) < (b.line : Int) - (a.line : Int) := by
      have hc : (a.line : Int) < (b.line : Int) := by exact_mod_cast hlt
      omega
    rw [if_pos hpos]

/-- Witness for the amended delta-encoding theorem at the concrete document
`ab   cd` and i = 0: the delta-column entry of the second quintuple is 5. -/
theorem semantic_tokens_delta_encoding_witness :
    (provide_semantic_tokens (parse_document "ab   cd".toList))[6]? = some 5 := by
  have h := semantic_tokens_delta_encoding (parse_document "ab   cd".toList) 0
    ⟨.IDENTIFIER, ['a', 'b'], 0, 0, 2⟩ ⟨.IDENTIFIER, ['c', 'd'], 0, 5, 7⟩
    (by decide) (by decide)
  exact h.1 rfl

/-! ## Lemmas: association lists -/

theorem lookupA_setA_self {α : Type} (k : List Char) (v : α) (l : List (List Char × α)) :
    lookupA k (setA k v l) = some v := by
  induction l with
  | nil => simp [setA, lookupA]
  | cons p rest ih =>
    by_cases h : p.1 = k
    · simp [setA, h, lookupA]
    · simp [setA, h, lookupA, ih]

theorem lookupA_setA_ne {α : Type} (k k' : List Char) (v : α) (l : List (List Char × α))
    (h : k' ≠ k) : lookupA k' (setA k v l) = lookupA k' l := by
  induction l with
  | nil =>
    simp only [setA, lookupA]
    rw [if_neg (fun he => h he.symm)]
  | cons p rest ih =>
    by_cases hp : p.1 = k
    · simp only [setA, if_pos hp, lookupA]
      rw [if_neg (fun he => h he.symm), if_neg (fun he => h (by rw [← he]; exact hp))]
    · simp only [setA, if_neg hp, lookupA]
      by_cases hp' : p.1 = k'
      · simp [hp']
      · simp [hp', ih]

theorem updEnd_nil (k : List Char) (e : Nat) : updEnd k e [] = [] := rfl

theorem updEnd_cons (k : List Char) (e : Nat) (p : List Char × FuncDef)
    (rest : List (List Char × FuncDef)) :
    updEnd k e (p :: rest) =
      (if p.1 = k then (p.1, { p.2 with end_line := e }) else p) :: updEnd k e rest := rfl

theorem lookupA_updEnd_self (k : List Char) (e : Nat) (l : List (List Char × FuncDef)) :
    lookupA k (updEnd k e l) =
      (lookupA k l).map (fun fd => { fd with end_line := e }) := by
  induction l with
  | nil => simp [updEnd_nil, lookupA]
  | cons p rest ih =>
    rw [updEnd_cons]
    by_cases h : p.1 = k
    · rw [if_pos h]
      simp [lookupA, h]
    · rw [if_neg h]
      simp only [lookupA, if_neg h]
      exact ih

theorem lookupA_updEnd_ne (k k' : List Char) (e : Nat) (l : List (List Char × FuncDef))
    (h : k' ≠ k) : lookupA k' (updEnd k e l) = lookupA k' l := by
  induction l with
  | nil => simp [updEnd_nil]
  | cons p rest ih =>
    rw [updEnd_cons]
    by_cases hp : p.1 = k
    · rw [if_pos hp]
      simp only [lookupA]
      rw [if_neg (fun he => h (by rw [← he]; exact hp)),
        if_neg (fun he => h (by rw [← he]; exact hp))]
      exact ih
    · rw [if_neg hp]
      simp only [lookupA]
      by_cases hp' : p.1 = k'
      · simp [hp']
      · simp only [if_neg hp']
        exact ih

/-! ## Lemmas: header recognition -/

/-- Whether `_parse_func_header` succeeds depends only on the shape of the
significant tokens, not on the line number or indentation arguments. -/
theorem parse_func_header_cons_eq (t0 name_tok : Token) (rest2 : List Token) (ln ind : Nat) :
    _parse_func_header (t0 :: name_tok :: rest2) ln ind =
      (if (t0 :: name_tok :: rest2).length < 4 then none
       else if name_tok.type ≠ TokenType.IDENTIFIER then none
       else
        match rest2.dropWhile (fun t => decide (t.type ≠ TokenType.PAREN_OPEN)) with
        | [] => none
        | _ :: inside =>
          some ⟨name_tok.value, ln, name_tok.col, ln,
            ((inside.takeWhile (fun t => decide (t.type ≠ TokenType.PAREN_CLOSE))).filter
              (fun t => decide (t.type = TokenType.IDENTIFIER))).map
                (fun t => ⟨t.value, t.line, t.col⟩),
            ind + 4⟩) := rfl

theorem parse_func_header_short (sig : List Token) (ln ind : Nat)
    (h : sig.length < 4) : _parse_func_header sig ln ind = none := by
  unfold _parse_func_header
  rw [if_pos h]

theorem parse_func_header_isSome_indep (sig : List Token) (ln ind ln' ind' : Nat) :
    (_parse_func_header sig ln ind).isSome = (_parse_func_header sig ln' ind').isSome := by
  match sig with
  | [] => rw [parse_func_header_short _ _ _ (by simp), parse_func_header_short _ _ _ (by simp)]
  | [t] => rw [parse_func_header_short _ _ _ (by simp), parse_func_header_short _ _ _ (by simp)]
  | t0 :: name_tok :: rest2 =>
    rw [parse_func_header_cons_eq, parse_func_header_cons_eq]
    by_cases h1 : (t0 :: name_tok :: rest2).length < 4
    · rw [if_pos h1, if_pos h1]
    · rw [if_neg h1, if_neg h1]
      by_cases h2 : name_tok.type = TokenType.IDENTIFIER
      · rw [if_neg (fun hc => hc h2), if_neg (fun hc => hc h2)]
        rcases h3 : rest2.dropWhile (fun t => decide (t.type ≠ TokenType.PAREN_OPEN)) with
          _ | ⟨u, inside⟩
        · rw [h3]
        · rw [h3]
          rfl
      · rw [if_pos h2, if_pos h2]

theorem parse_func_header_fields (sig : List Token) (ln ind : Nat) (fd : FuncDef)
    (h : _parse_func_header sig ln ind = some fd) : fd.line = ln ∧ fd.end_line = ln := by
  match sig, h with
  | [], h => rw [parse_func_header_short _ _ _ (by simp)] at h; exact Option.noConfusion h
  | [t], h => rw [parse_func_header_short _ _ _ (by simp)] at h; exact Option.noConfusion h
  | t0 :: name_tok :: rest2, h =>
    rw [parse_func_header_cons_eq] at h
    by_cases h1 : (t0 :: name_tok :: rest2).length < 4
    · rw [if_pos h1] at h
      exact Option.noConfusion h
    · rw [if_neg h1] at h
      by_cases h2 : name_tok.type = TokenType.IDENTIFIER
      · rw [if_neg (fun hc => hc h2)] at h
        rcases h3 : rest2.dropWhile (fun t => decide (t.type ≠ TokenType.PAREN_OPEN)) with
          _ | ⟨u, inside⟩
        · rw [h3] at h
          exact Option.noConfusion h
        · rw [h3] at h
          have := (Option.some.injEq _ _).mp h
          rw [← this]
          exact ⟨rfl, rfl⟩
      · rw [if_pos h2] at h
        exact Option.noConfusion h

/-- A line whose first significant token is the function keyword and whose
header parses is a recognized header. -/
theorem recognizedSig_of_some (t0 : Token) (stl : List Token) (ln ind : Nat) (fd : FuncDef)
    (hkw : t0.type = TokenType.KEYWORD ∧ t0.value = kwFunc)
    (h : _parse_func_header (t0 :: stl) ln ind = some fd) :
    recognizedSig (t0 :: stl) = true := by
  unfold recognizedSig isHeaderSig
  have h1 : (_parse_func_header (t0 :: stl) 0 0).isSome = true := by
    rw [parse_func_header_isSome_indep (t0 :: stl) 0 0 ln ind, h]
    rfl
  simp [hkw, h1]

/-- A significant line that is not a recognized-header line: either its
first token is not the function keyword, or its header fails to parse. -/
theorem recognizedSig_of_none (t0 : Token) (stl : List Token) (ln ind : Nat)
    (h : ¬ (t0.type = TokenType.KEYWORD ∧ t0.value = kwFunc) ∨
      _parse_func_header (t0 :: stl) ln ind = none) :
    recognizedSig (t0 :: stl) = false := by
  unfold recognizedSig isHeaderSig
  rcases h with h | h
  · simp [h]
  · have h1 : (_parse_func_header (t0 :: stl) 0 0).isSome = false := by
      rw [parse_func_header_isSome_indep (t0 :: stl) 0 0 ln ind, h]
      rfl
    simp [h1]

/-! ## Lemmas: the spec-side body scan -/

theorem drop_cons_of_getElem (L : List (List Token × Nat)) (m : Nat) (p : List Token × Nat)
    (h : L[m]? = some p) : L.drop m = p :: L.drop (m + 1) := by
  have hm : m < L.length := by
    by_contra hge
    rw [List.getElem?_eq_none (by omega)] at h
    exact Option.noConfusion h
  rw [List.drop_eq_getElem_cons hm]
  congr 1
  have := List.getElem?_eq_getElem hm
  rw [this] at h
  exact (Option.some.injEq _ _).mp h

theorem scanBody_skip (L : List (List Token × Nat)) (fI fb m : Nat) (p : List Token × Nat)
    (hp : L[m]? = some p) (hev : lineEventAt L m fI = false) :
    scanBody fI fb m (L.drop m) = scanBody fI fb (m + 1) (L.drop (m + 1)) := by
  rw [drop_cons_of_getElem L m p hp]
  unfold lineEventAt at hev
  rw [hp] at hev
  by_cases hsig : (_significant_tokens p.1).isEmpty
  · simp [scanBody, hsig]
  · have hparts : ¬ (p.2 ≤ fI) ∧ recognizedSig (_significant_tokens p.1) = false := by
      simpa [hsig] using hev
    simp [scanBody, hsig, hparts.1, hparts.2]

theorem scanBody_close (L : List (List Token × Nat)) (fI fb m : Nat) (p : List Token × Nat)
    (hp : L[m]? = some p) (hsig : ¬ (_significant_tokens p.1).isEmpty) (hle : p.2 ≤ fI) :
    scanBody fI fb m (L.drop m) = m - 1 := by
  rw [drop_cons_of_getElem L m p hp]
  simp [scanBody, hsig, hle]

theorem scanBody_header (L : List (List Token × Nat)) (fI fb m : Nat) (p : List Token × Nat)
    (hp : L[m]? = some p) (hsig : ¬ (_significant_tokens p.1).isEmpty)
    (hgt : ¬ (p.2 ≤ fI)) (hrec : recognizedSig (_significant_tokens p.1) = true) :
    scanBody fI fb m (L.drop m) = m := by
  rw [drop_cons_of_getElem L m p hp]
  simp [scanBody, hsig, hgt, hrec]

theorem scanBody_shift (L : List (List Token × Nat)) (fI fb : Nat) :
    ∀ (k a : Nat), a + k ≤ L.length →
      (∀ m, a ≤ m → m < a + k → lineEventAt L m fI = false) →
      scanBody fI fb a (L.drop a) = scanBody fI fb (a + k) (L.drop (a + k)) := by
  intro k
  induction k with
  | zero => intro a _ _; rfl
  | succ k ih =>
    intro a hak hev
    have ha : a < L.length := by omega
    obtain ⟨p, hp⟩ : ∃ p, L[a]? = some p := by
      rw [List.getElem?_eq_getElem ha]
      exact ⟨_, rfl⟩
    rw [scanBody_skip L fI fb a p hp (hev a (le_refl a) (by omega))]
    have harith : a + 1 + k = a + (k + 1) := by omega
    have := ih (a + 1) (by omega) (fun m hm1 hm2 => hev m (by omega) (by omega))
    rw [this, harith]

/-! ## Lemmas: step equations of the build pass -/

theorem parseStep_blank (st : PState) (ln : Nat) (toks : List Token) (ind : Nat)
    (h : (_significant_tokens toks).isEmpty) : parseStep st ln toks ind = st := by
  simp [parseStep, h]

theorem parseStep_sig (st : PState) (ln : Nat) (toks : List Token) (ind : Nat)
    (h : ¬ (_significant_tokens toks).isEmpty) :
    parseStep st ln toks ind =
      parseStepMain (parseStepClose st ln ind) (_significant_tokens toks) ln ind := by
  simp [parseStep, h]

theorem parseStepClose_none (st : PState) (ln ind : Nat) (hcur : st.cur = none) :
    parseStepClose st ln ind = st := by
  simp [parseStepClose, hcur]

theorem parseStepClose_close (st : PState) (ln ind : Nat) (nm : List Char) (fI : Nat)
    (hcur : st.cur = some (nm, fI)) (h : ind ≤ fI) :
    parseStepClose st ln ind =
      { st with functions := updEnd nm (ln - 1) st.functions, cur := none } := by
  simp [parseStepClose, hcur, h]

theorem parseStepClose_extend (st : PState) (ln ind : Nat) (nm : List Char) (fI : Nat)
    (hcur : st.cur = some (nm, fI)) (h : ¬ ind ≤ fI) :
    parseStepClose st ln ind = { st with functions := updEnd nm ln st.functions } := by
  simp [parseStepClose, hcur, h]

theorem parseStepMain_header (st1 : PState) (t0 : Token) (stl : List Token) (ln ind : Nat)
    (fd : FuncDef) (hkw : t0.type = TokenType.KEYWORD ∧ t0.value = kwFunc)
    (hp : _parse_func_header (t0 :: stl) ln ind = some fd) :
    parseStepMain st1 (t0 :: stl) ln ind =
      { functions := setA fd.name fd st1.functions,
        vars := registerParams fd st1.vars,
        cur := some (fd.name, ind) } := by
  simp [parseStepMain, hkw, hp]

theorem parseStepMain_nokw (st1 : PState) (t0 : Token) (stl : List Token) (ln ind : Nat)
    (hkw : ¬ (t0.type = TokenType.KEYWORD ∧ t0.value = kwFunc)) :
    parseStepMain st1 (t0 :: stl) ln ind =
      { st1 with
        vars := _extract_assignment (t0 :: stl) ln st1.vars (st1.cur.map Prod.fst) } := by
  simp [parseStepMain, hkw]

theorem parseStepMain_nohdr (st1 : PState) (t0 : Token) (stl : List Token) (ln ind : Nat)
    (hkw : t0.type = TokenType.KEYWORD ∧ t0.value = kwFunc)
    (hp : _parse_func_header (t0 :: stl) ln ind = none) :
    parseStepMain st1 (t0 :: stl) ln ind =
      { st1 with
        vars := _extract_assignment (t0 :: stl) ln st1.vars (st1.cur.map Prod.fst) } := by
  simp [parseStepMain, hkw, hp]

/-! ## Lemmas: the build-pass invariant -/

theorem getElem?_some_lt {α : Type} (L : List α) (m : Nat) (p : α) (h : L[m]? = some p) :
    m < L.length := by
  by_contra hge
  rw [List.getElem?_eq_none (by omega)] at h
  exact Option.noConfusion h

theorem parseInv_of_eq (L : List (List Token × Nat)) (st st' : PState) (idx : Nat)
    (hf : st'.functions = st.functions) (hc : st'.cur = st.cur) (h : ParseInv L st idx) :
    ParseInv L st' idx := by
  constructor
  · intro nm fI hcc
    rw [hc] at hcc
    obtain ⟨fd, h1, h2, h3, h4, h5⟩ := h.cur_ok nm fI hcc
    exact ⟨fd, by rw [hf]; exact h1, h2, h3, h4, h5⟩
  · intro nm fd hl
    rw [hf] at hl
    obtain ⟨h1, h2, h3⟩ := h.tbl_ok nm fd hl
    exact ⟨h1, h2, by rw [hc]; exact h3⟩

theorem parseInv_succ (L : List (List Token × Nat)) (st : PState) (idx : Nat)
    (h : ParseInv L st idx)
    (hev : ∀ nm fI, st.cur = some (nm, fI) → lineEventAt L idx fI = false) :
    ParseInv L st (idx + 1) := by
  constructor
  · intro nm fI hcc
    obtain ⟨fd, h1, h2, h3, h4, h5⟩ := h.cur_ok nm fI hcc
    refine ⟨fd, h1, h2, by omega, h4, fun m hm1 hm2 => ?_⟩
    rcases Nat.lt_or_ge m idx with hlt | hge
    · exact h5 m hm1 hlt
    · have hm : m = idx := by omega
      subst hm
      exact hev nm fI hcc
  · intro nm fd hl
    obtain ⟨h1, h2, h3⟩ := h.tbl_ok nm fd hl
    exact ⟨h1, by omega, h3⟩

theorem parseInv_register (L : List (List Token × Nat)) (idx : Nat) (p : List Token × Nat)
    (hp : L[idx]? = some p) (fns : List (List Char × FuncDef))
    (vrs : List (List Char × VarDef)) (fdh : FuncDef) (hline : fdh.line = idx)
    (hold : ∀ nm fd, lookupA nm fns = some fd →
      fd.name = nm ∧ fd.line < idx ∧
        fd.end_line = bodyEndSpec L fd.line (getIndent L fd.line)) :
    ParseInv L ⟨setA fdh.name fdh fns, vrs, some (fdh.name, p.2)⟩ (idx + 1) := by
  constructor
  · intro nm fI hcc
    simp only at hcc
    have hnm : nm = fdh.name := by
      have := (Option.some.injEq _ _).mp hcc
      exact (congrArg Prod.fst this).symm
    have hfI : fI = p.2 := by
      have := (Option.some.injEq _ _).mp hcc
      exact (congrArg Prod.snd this).symm
    subst hnm
    subst hfI
    refine ⟨fdh, lookupA_setA_self _ _ _, rfl, by omega, ?_, fun m hm1 hm2 => by omega⟩
    rw [hline]
    unfold getIndent
    rw [hp]
  · intro nm fd hl
    simp only at hl
    by_cases hnm : nm = fdh.name
    · subst hnm
      rw [lookupA_setA_self] at hl
      have := (Option.some.injEq _ _).mp hl
      subst this
      exact ⟨rfl, by omega, Or.inl ⟨p.2, rfl⟩⟩
    · rw [lookupA_setA_ne _ _ _ _ hnm] at hl
      obtain ⟨h1, h2, h3⟩ := hold nm fd hl
      exact ⟨h1, by omega, Or.inr h3⟩

/-- Preservation of the build-pass invariant across one line. -/
theorem parseInv_step (L : List (List Token × Nat)) (idx : Nat) (p : List Token × Nat)
    (hp : L[idx]? = some p) (st : PState) (h : ParseInv L st idx) :
    ParseInv L (parseStep st idx p.1 p.2) (idx + 1) := by
  have hidxlt : idx < L.length := getElem?_some_lt L idx p hp
  by_cases hsig : (_significant_tokens p.1).isEmpty
  · rw [parseStep_blank _ _ _ _ hsig]
    refine parseInv_succ L st idx h (fun nm fI _ => ?_)
    unfold lineEventAt
    rw [hp]
    simp [hsig]
  · rw [parseStep_sig _ _ _ _ hsig]
    obtain ⟨t0, stl, hS⟩ : ∃ t0 stl, _significant_tokens p.1 = t0 :: stl := by
      rcases hS : _significant_tokens p.1 with _ | ⟨t0, stl⟩
      · rw [hS] at hsig
        simp at hsig
      · exact ⟨t0, stl, rfl⟩
    rw [hS]
    rcases hcur : st.cur with _ | ⟨nm0, fI0⟩
    · -- no open function: the close block is the identity
      rw [parseStepClose_none st idx p.2 hcur]
      by_cases hkw : t0.type = TokenType.KEYWORD ∧ t0.value = kwFunc
      · rcases hparse : _parse_func_header (t0 :: stl) idx p.2 with _ | fdh
        · rw [parseStepMain_nohdr st t0 stl idx p.2 hkw hparse]
          refine parseInv_of_eq L st _ (idx + 1) rfl rfl (parseInv_succ L st idx h ?_)
          intro nm fI hcc
          rw [hcur] at hcc
          exact Option.noConfusion hcc
        · rw [parseStepMain_header st t0 stl idx p.2 fdh hkw hparse]
          refine parseInv_register L idx p hp st.functions _ fdh
            (parse_func_header_fields _ _ _ _ hparse).1 (fun nm fd hl => ?_)
          obtain ⟨h1, h2, h3⟩ := h.tbl_ok nm fd hl
          rcases h3 with ⟨fI, hcc⟩ | h3
          · rw [hcur] at hcc
            exact Option.noConfusion hcc
          · exact ⟨h1, h2, h3⟩
      · rw [parseStepMain_nokw st t0 stl idx p.2 hkw]
        refine parseInv_of_eq L st _ (idx + 1) rfl rfl (parseInv_succ L st idx h ?_)
        intro nm fI hcc
        rw [hcur] at hcc
        exact Option.noConfusion hcc
    · -- inside a function
      obtain ⟨fd0, hl0, hn0, hlt0, hfI0, hnoev0⟩ := h.cur_ok nm0 fI0 hcur
      by_cases hle : p.2 ≤ fI0
      · -- the line closes the body at the previous line
        rw [parseStepClose_close st idx p.2 nm0 fI0 hcur hle]
        have hkey : bodyEndSpec L fd0.line (getIndent L fd0.line) = idx - 1 := by
          rw [← hfI0]
          unfold bodyEndSpec
          have harr : fd0.line + 1 + (idx - (fd0.line + 1)) = idx := by omega
          rw [scanBody_shift L fI0 (L.length - 1) (idx - (fd0.line + 1)) (fd0.line + 1)
            (by omega) (fun m hm1 hm2 => hnoev0 m (by omega) (by omega)), harr]
          exact scanBody_close L fI0 (L.length - 1) idx p hp hsig hle
        have hold : ∀ nm fd, lookupA nm (updEnd nm0 (idx - 1) st.functions) = some fd →
            fd.name = nm ∧ fd.line < idx ∧
              fd.end_line = bodyEndSpec L fd.line (getIndent L fd.line) := by
          intro nm fd hl
          by_cases hnm : nm = nm0
          · subst hnm
            rw [lookupA_updEnd_self, hl0] at hl
            have := (Option.some.injEq _ _).mp hl
            subst this
            exact ⟨hn0, hlt0, by simpa using hkey.symm⟩
          · rw [lookupA_updEnd_ne _ _ _ _ hnm] at hl
            obtain ⟨h1, h2, h3⟩ := h.tbl_ok nm fd hl
            rcases h3 with ⟨fI, hcc⟩ | h3
            · rw [hcur] at hcc
              have := (Option.some.injEq _ _).mp hcc
              exact absurd (congrArg Prod.fst this).symm hnm
            · exact ⟨h1, h2, h3⟩
        by_cases hkw : t0.type = TokenType.KEYWORD ∧ t0.value = kwFunc
        · rcases hparse : _parse_func_header (t0 :: stl) idx p.2 with _ | fdh
          · rw [parseStepMain_nohdr _ t0 stl idx p.2 hkw hparse]
            constructor
            · intro nm fI hcc
              exact Option.noConfusion hcc
            · intro nm fd hl
              simp only at hl
              obtain ⟨h1, h2, h3⟩ := hold nm fd hl
              exact ⟨h1, by omega, Or.inr h3⟩
          · rw [parseStepMain_header _ t0 stl idx p.2 fdh hkw hparse]
            exact parseInv_register L idx p hp _ _ fdh
              (parse_func_header_fields _ _ _ _ hparse).1 hold
        · rw [parseStepMain_nokw _ t0 stl idx p.2 hkw]
          constructor
          · intro nm fI hcc
            exact Option.noConfusion hcc
          · intro nm fd hl
            simp only at hl
            obtain ⟨h1, h2, h3⟩ := hold nm fd hl
            exact ⟨h1, by omega, Or.inr h3⟩
      · -- the line extends the body
        rw [parseStepClose_extend st idx p.2 nm0 fI0 hcur hle]
        by_cases hkw : t0.type = TokenType.KEYWORD ∧ t0.value = kwFunc
        · rcases hparse : _parse_func_header (t0 :: stl) idx p.2 with _ | fdh
          · -- header line whose header fails to parse: not an event
            rw [parseStepMain_nohdr _ t0 stl idx p.2 hkw hparse]
            have hrec : recognizedSig (_significant_tokens p.1) = false := by
              rw [hS]
              exact recognizedSig_of_none t0 stl idx p.2 (Or.inr hparse)
            constructor
            · intro nm fI hcc
              simp only at hcc
              rw [hcur] at hcc
              have heq := (Option.some.injEq _ _).mp hcc
              have hnm : nm = nm0 := (congrArg Prod.fst heq).symm
              have hfI : fI = fI0 := (congrArg Prod.snd heq).symm
              subst hnm
              subst hfI
              refine ⟨{ fd0 with end_line := idx }, ?_, hn0,
                show fd0.line < idx + 1 by omega, hfI0, fun m hm1 hm2 => ?_⟩
              · simp only
                rw [lookupA_updEnd_self, hl0]
                rfl
              · rcases Nat.lt_or_ge m idx with hlt | hge
                · exact hnoev0 m hm1 hlt
                · have hm : m = idx := by omega
                  subst hm
                  unfold lineEventAt
                  rw [hp]
                  simp [hsig, hle, hrec]
            · intro nm fd hl
              simp only at hl
              by_cases hnm : nm = nm0
              · subst hnm
                rw [lookupA_updEnd_self, hl0] at hl
                have hfd := (Option.some.injEq _ _).mp hl
                subst hfd
                exact ⟨hn0, show fd0.line < idx + 1 by omega, Or.inl ⟨fI0, by simp [hcur]⟩⟩
              · rw [lookupA_updEnd_ne _ _ _ _ hnm] at hl
                obtain ⟨h1, h2, h3⟩ := h.tbl_ok nm fd hl
                rcases h3 with ⟨fI, hcc⟩ | h3
                · rw [hcur] at hcc
                  have := (Option.some.injEq _ _).mp hcc
                  exact absurd (congrArg Prod.fst this).symm hnm
                · exact ⟨h1, by omega, Or.inr h3⟩
          · -- nested recognized header: freezes the outer extent at this line
            rw [parseStepMain_header _ t0 stl idx p.2 fdh hkw hparse]
            have hrec : recognizedSig (_significant_tokens p.1) = true := by
              rw [hS]
              exact recognizedSig_of_some t0 stl idx p.2 fdh hkw hparse
            have hkey : bodyEndSpec L fd0.line (getIndent L fd0.line) = idx := by
              rw [← hfI0]
              unfold bodyEndSpec
              have harr : fd0.line + 1 + (idx - (fd0.line + 1)) = idx := by omega
              rw [scanBody_shift L fI0 (L.length - 1) (idx - (fd0.line + 1)) (fd0.line + 1)
                (by omega) (fun m hm1 hm2 => hnoev0 m (by omega) (by omega)), harr]
              exact scanBody_header L fI0 (L.length - 1) idx p hp hsig hle (hS ▸ hrec)
            refine parseInv_register L idx p hp _ _ fdh
              (parse_func_header_fields _ _ _ _ hparse).1 (fun nm fd hl => ?_)
            by_cases hnm : nm = nm0
            · subst hnm
              rw [lookupA_updEnd_self, hl0] at hl
              have := (Option.some.injEq _ _).mp hl
              subst this
              exact ⟨hn0, hlt0, by simpa using hkey.symm⟩
            · rw [lookupA_updEnd_ne _ _ _ _ hnm] at hl
              obtain ⟨h1, h2, h3⟩ := h.tbl_ok nm fd hl
              rcases h3 with ⟨fI, hcc⟩ | h3
              · rw [hcur] at hcc
                have := (Option.some.injEq _ _).mp hcc
                exact absurd (congrArg Prod.fst this).symm hnm
              · exact ⟨h1, h2, h3⟩
        · -- ordinary significant line inside the body: not an event
          rw [parseStepMain_nokw _ t0 stl idx p.2 hkw]
          have hrec : recognizedSig (_significant_tokens p.1) = false := by
            rw [hS]
            exact recognizedSig_of_none t0 stl idx p.2 (Or.inl hkw)
          constructor
          · intro nm fI hcc
            simp only at hcc
            rw [hcur] at hcc
            have heq := (Option.some.injEq _ _).mp hcc
            have hnm : nm = nm0 := (congrArg Prod.fst heq).symm
            have hfI : fI = fI0 := (congrArg Prod.snd heq).symm
            subst hnm
            subst hfI
            refine ⟨{ fd0 with end_line := idx }, ?_, hn0,
              show fd0.line < idx + 1 by omega, hfI0, fun m hm1 hm2 => ?_⟩
            · simp only
              rw [lookupA_updEnd_self, hl0]
              rfl
            · rcases Nat.lt_or_ge m idx with hlt | hge
              · exact hnoev0 m hm1 hlt
              · have hm : m = idx := by omega
                subst hm
                unfold lineEventAt
                rw [hp]
                simp [hsig, hle, hrec]
          · intro nm fd hl
            simp only at hl
            by_cases hnm : nm = nm0
            · subst hnm
              rw [lookupA_updEnd_self, hl0] at hl
              have hfd := (Option.some.injEq _ _).mp hl
              subst hfd
              exact ⟨hn0, show fd0.line < idx + 1 by omega, Or.inl ⟨fI0, by simp [hcur]⟩⟩
            · rw [lookupA_updEnd_ne _ _ _ _ hnm] at hl
              obtain ⟨h1, h2, h3⟩ := h.tbl_ok nm fd hl
              rcases h3 with ⟨fI, hcc⟩ | h3
              · rw [hcur] at hcc
                have := (Option.some.injEq _ _).mp hcc
                exact absurd (congrArg Prod.fst this).symm hnm
              · exact ⟨h1, by omega, Or.inr h3⟩

/-- Running the build pass to the end from an invariant state and applying
the trailing fix-up yields a function table in which every entry's extent
equals the spec-side scan. -/
theorem parseLines_final_char (L : List (List Token × Nat)) :
    ∀ (rest : List (List Token × Nat)) (idx : Nat) (st : PState),
      rest = L.drop idx → idx ≤ L.length → ParseInv L st idx →
      ∀ nm fd,
        lookupA nm (finishParse (parseLines st idx rest) L.length).functions = some fd →
        fd.name = nm ∧ fd.line < L.length ∧
          fd.end_line = bodyEndSpec L fd.line (getIndent L fd.line) := by
  intro rest
  induction rest with
  | nil =>
    intro idx st hdrop hle hinv nm fd hl
    have hN : L.length ≤ idx := by
      by_contra hlt
      have : L.drop idx ≠ [] := by
        intro hc
        have := List.length_drop idx L ▸ congrArg List.length hc
        simp at this
        omega
      exact this hdrop.symm
    have hidx : idx = L.length := le_antisymm hle hN
    subst hidx
    rw [show parseLines st L.length [] = st from rfl] at hl
    rcases hcur : st.cur with _ | ⟨nm0, fI0⟩
    · rw [show finishParse st L.length = st by simp [finishParse, hcur]] at hl
      obtain ⟨h1, h2, h3⟩ := hinv.tbl_ok nm fd hl
      rcases h3 with ⟨fI, hcc⟩ | h3
      · rw [hcur] at hcc
        exact Option.noConfusion hcc
      · exact ⟨h1, h2, h3⟩
    · rw [show finishParse st L.length =
          { st with functions := updEnd nm0 (L.length - 1) st.functions } by
        simp [finishParse, hcur]] at hl
      simp only at hl
      obtain ⟨fd0, hl0, hn0, hlt0, hfI0, hnoev0⟩ := hinv.cur_ok nm0 fI0 hcur
      by_cases hnm : nm = nm0
      · subst hnm
        rw [lookupA_updEnd_self, hl0] at hl
        have hfd := (Option.some.injEq _ _).mp hl
        subst hfd
        refine ⟨hn0, hlt0, ?_⟩
        show L.length - 1 = bodyEndSpec L fd0.line (getIndent L fd0.line)
        rw [← hfI0]
        unfold bodyEndSpec
        have harr : fd0.line + 1 + (L.length - (fd0.line + 1)) = L.length := by omega
        rw [scanBody_shift L fI0 (L.length - 1) (L.length - (fd0.line + 1)) (fd0.line + 1)
          (by omega) (fun m hm1 hm2 => hnoev0 m (by omega) (by omega)), harr,
          List.drop_length]
        rfl
      · rw [lookupA_updEnd_ne _ _ _ _ hnm] at hl
        obtain ⟨h1, h2, h3⟩ := hinv.tbl_ok nm fd hl
        rcases h3 with ⟨fI, hcc⟩ | h3
        · rw [hcur] at hcc
          have := (Option.some.injEq _ _).mp hcc
          exact absurd (congrArg Prod.fst this).symm hnm
        · exact ⟨h1, h2, h3⟩
  | cons q rest' ih =>
    intro idx st hdrop hle hinv nm fd hl
    have hidxlt : idx < L.length := by
      by_contra hge
      have : L.drop idx = [] := List.drop_eq_nil_of_le (by omega)
      rw [this] at hdrop
      exact List.noConfusion hdrop
    have hgetd : L.drop idx = L[idx] :: L.drop (idx + 1) := List.drop_eq_getElem_cons hidxlt
    rw [← hdrop] at hgetd
    have hq : q = L[idx] := (List.cons.injEq _ _ _ _).mp hgetd |>.1
    have hrest : rest' = L.drop (idx + 1) := (List.cons.injEq _ _ _ _).mp hgetd |>.2
    have hqget : L[idx]? = some q := by
      rw [List.getElem?_eq_getElem hidxlt, hq]
    rw [show parseLines st idx (q :: rest') =
        parseLines (parseStep st idx q.1 q.2) (idx + 1) rest' from rfl] at hl
    exact ih (idx + 1) (parseStep st idx q.1 q.2) hrest (by omega)
      (parseInv_step L idx q hqget st hinv) nm fd hl

/-- Characterization of the function table of `parse_document`: every
recorded function is keyed by its own name, declared at a valid line, and
its `end_line` equals the spec-side scan `bodyEndSpec` from its declaration
line with its declaration indentation. -/
theorem parse_functions_char (source : List Char) (nm : List Char) (fd : FuncDef)
    (h : lookupA nm (parse_document source).functions = some fd) :
    fd.name = nm ∧ fd.line < (parse_document source).lines.length ∧
      fd.end_line = bodyEndSpec (lineData (parse_document source)) fd.line
        (getIndent (lineData (parse_document source)) fd.line) := by
  have hlen : (lineData (parse_document source)).length =
      (parse_document source).lines.length := by
    unfold lineData
    rw [List.length_zip]
    simp [parse_document]
  have hinit : ParseInv (lineData (parse_document source)) ⟨[], [], none⟩ 0 := by
    constructor
    · intro nm' fI hcc
      exact Option.noConfusion hcc
    · intro nm' fd' hl
      exact Option.noConfusion hl
  have hfuncs : (parse_document source).functions =
      (finishParse
        (parseLines ⟨[], [], none⟩ 0 (lineData (parse_document source)))
        (lineData (parse_document source)).length).functions := by
    rw [hlen]
    rfl
  rw [hfuncs] at h
  have := parseLines_final_char (lineData (parse_document source))
    (lineData (parse_document source)) 0 ⟨[], [], none⟩ (List.drop_zero _).symm
    (by omega) hinit nm fd h
  rw [hlen] at this
  exact this

/-- Bounds of the spec-side scan: the result lies between `m - 1` and the
fallback, when the fallback is the index one past the scanned segment. -/
theorem scanBody_bounds (dI : Nat) :
    ∀ (rest : List (List Token × Nat)) (m fb : Nat), fb + 1 = m + rest.length →
      m - 1 ≤ scanBody dI fb m rest ∧ scanBody dI fb m rest ≤ fb := by
  intro rest
  induction rest with
  | nil =>
    intro m fb hfb
    simp only [scanBody]
    omega
  | cons p rs ih =>
    intro m fb hfb
    have hlen : fb + 1 = (m + 1) + rs.length := by
      rw [hfb, List.length_cons]
      ring
    by_cases hsig : (_significant_tokens p.1).isEmpty
    · rw [show scanBody dI fb m (p :: rs) = scanBody dI fb (m + 1) rs by
        simp [scanBody, hsig]]
      have := ih (m + 1) fb hlen
      omega
    · by_cases hle : p.2 ≤ dI
      · rw [show scanBody dI fb m (p :: rs) = m - 1 by simp [scanBody, hsig, hle]]
        rw [List.length_cons] at hfb
        omega
      · by_cases hrec : recognizedSig (_significant_tokens p.1)
        · rw [show scanBody dI fb m (p :: rs) = m by simp [scanBody, hsig, hle, hrec]]
          rw [List.length_cons] at hfb
          omega
        · rw [show scanBody dI fb m (p :: rs) = scanBody dI fb (m + 1) rs by
            simp [scanBody, hsig, hle, hrec]]
          have := ih (m + 1) fb hlen
          omega

theorem bodyEndSpec_bounds (L : List (List Token × Nat)) (d dI : Nat) (hd : d < L.length) :
    d ≤ bodyEndSpec L d dI ∧ bodyEndSpec L d dI ≤ L.length - 1 := by
  unfold bodyEndSpec
  have hfb : (L.length - 1) + 1 = (d + 1) + (L.drop (d + 1)).length := by
    rw [List.length_drop]
    omega
  have := scanBody_bounds dI (L.drop (d + 1)) (d + 1) (L.length - 1) hfb
  omega

/-- C3 counterexample: in the document

    कार्यम् f(a):
        x = 1
    (blank line)
    z = 3

the recorded `bodyEndLine` of `f` is 2 — the blank line — while the last
line of the contiguous block after the definition whose indentation strictly
exceeds the definition's indentation (the claim's characterization, under
which the blank line of indentation 0 ends the block) is line 1. -/
theorem parse_document_body_end_blank_line_cex :
    lookupA "f".toList
        (parse_document "कार्यम् f(a):\n    x = 1\n\nz = 3".toList).functions =
      some ⟨"f".toList, 0, 8, 2, [⟨"a".toList, 0, 10⟩], 4⟩ ∧
    contigBlockEnd
        (parse_document "कार्यम् f(a):\n    x = 1\n\nz = 3".toList).line_indents 0 0 = 1 ∧
    (2 : Nat) ≠ 1 :=
  ⟨by decide, by decide, by decide⟩

/-- C3 (amended): for every document and every function recorded in the
function table, the recorded `bodyEndLine` equals the result of the
spec-side scan `bodyEndSpec` from the definition line: blank and
comment-only lines never close the body; the first significant line whose
indentation does not exceed the definition's closes the body at the line
immediately before it (which may be a blank line); a recognized nested
function-definition header inside the body freezes the extent at that
header's own line; and if the body is never closed, the extent ends at the
last line of the document. -/
theorem parse_document_body_end_characterization (source : List Char) (nm : List Char)
    (fd : FuncDef) (h : lookupA nm (parse_document source).functions = some fd) :
    fd.end_line = bodyEndSpec (lineData (parse_document source)) fd.line
      (getIndent (lineData (parse_document source)) fd.line) :=
  (parse_functions_char source nm fd h).2.2

/-- Witness for the amended C3 theorem at the counterexample document. -/
theorem parse_document_body_end_characterization_witness :
    FuncDef.end_line ⟨"f".toList, 0, 8, 2, [⟨"a".toList, 0, 10⟩], 4⟩ =
      bodyEndSpec (lineData (parse_document "कार्यम् f(a):\n    x = 1\n\nz = 3".toList))
        (FuncDef.line ⟨"f".toList, 0, 8, 2, [⟨"a".toList, 0, 10⟩], 4⟩)
        (getIndent (lineData (parse_document "कार्यम् f(a):\n    x = 1\n\nz = 3".toList))
          (FuncDef.line ⟨"f".toList, 0, 8, 2, [⟨"a".toList, 0, 10⟩], 4⟩)) :=
  parse_document_body_end_characterization
    "कार्यम् f(a):\n    x = 1\n\nz = 3".toList "f".toList
    ⟨"f".toList, 0, 8, 2, [⟨"a".toList, 0, 10⟩], 4⟩ (by decide)

/-- C9: for every input text and every function in the returned document's
function table, the recorded extent starts at the declaration line and ends
at a valid line index: `line ≤ end_line ≤ number of lines - 1`, and the
declaration line itself is a valid index. -/
theorem function_extent_bounds (source : List Char) (nm : List Char) (fd : FuncDef)
    (h : lookupA nm (parse_document source).functions = some fd) :
    fd.line ≤ fd.end_line ∧
    fd.end_line ≤ (parse_document source).lines.length - 1 ∧
    fd.line < (parse_document source).lines.length := by
  obtain ⟨-, hlt, hend⟩ := parse_functions_char source nm fd h
  have hlen : (lineData (parse_document source)).length =
      (parse_document source).lines.length := by
    unfold lineData
    rw [List.length_zip]
    simp [parse_document]
  have hdlt : fd.line < (lineData (parse_document source)).length := by
    rw [hlen]
    exact hlt
  have hb := bodyEndSpec_bounds (lineData (parse_document source)) fd.line
    (getIndent (lineData (parse_document source)) fd.line) hdlt
  rw [hlen] at hb
  rw [← hend] at hb
  exact ⟨hb.1, hb.2, hlt⟩

/-- Witness for the extent-bounds theorem at a concrete two-line document. -/
theorem function_extent_bounds_witness :
    FuncDef.line ⟨"g".toList, 0, 8, 1, [], 4⟩ ≤
      FuncDef.end_line ⟨"g".toList, 0, 8, 1, [], 4⟩ ∧
    FuncDef.end_line ⟨"g".toList, 0, 8, 1, [], 4⟩ ≤
      (parse_document "कार्यम् g():\n    x = 1".toList).lines.length - 1 ∧
    FuncDef.line ⟨"g".toList, 0, 8, 1, [], 4⟩ <
      (parse_document "कार्यम् g():\n    x = 1".toList).lines.length :=
  function_extent_bounds "कार्यम् g():\n    x = 1".toList "g".toList
    ⟨"g".toList, 0, 8, 1, [], 4⟩ (by decide)

/-! ## Lemmas: the variable table as a first-wins fold over events -/

theorem extract_eq_events (sig : List Token) (ln : Nat) (vrs : List (List Char × VarDef))
    (cur : Option (List Char)) :
    _extract_assignment sig ln vrs cur =
      (assignEvents sig ln cur).foldl (fun vs kv => insertNew kv.1 kv.2 vs) vrs := by
  unfold _extract_assignment assignEvents
  by_cases h1 : sig.length < 3
  · rw [if_pos h1, if_pos h1]
    rfl
  · rw [if_neg h1, if_neg h1]
    match sig with
    | [] => rfl
    | [t] => rfl
    | t0 :: t1 :: tl =>
      dsimp only
      split_ifs with h2
      · rfl
      · rfl

theorem register_eq_events (fd : FuncDef) (vrs : List (List Char × VarDef)) :
    registerParams fd vrs =
      (paramEvents fd).foldl (fun vs kv => insertNew kv.1 kv.2 vs) vrs := by
  unfold registerParams paramEvents
  rw [List.foldl_map]

theorem parseStepClose_cur (st : PState) (ln ind : Nat) :
    (parseStepClose st ln ind).cur = stepCur st.cur ind := by
  rcases hcur : st.cur with _ | ⟨nm, fI⟩
  · simp [parseStepClose, stepCur, hcur]
  · by_cases h : ind ≤ fI
    · simp [parseStepClose, stepCur, hcur, h]
    · simp [parseStepClose, stepCur, hcur, h]

theorem parseStepClose_vars (st : PState) (ln ind : Nat) :
    (parseStepClose st ln ind).vars = st.vars := by
  rcases hcur : st.cur with _ | ⟨nm, fI⟩
  · simp [parseStepClose, hcur]
  · by_cases h : ind ≤ fI
    · simp [parseStepClose, hcur, h]
    · simp [parseStepClose, hcur, h]

theorem varEventsLoop_blank (cur : Option (List Char × Nat)) (ln : Nat)
    (toks : List Token) (ind : Nat) (rest : List (List Token × Nat))
    (h : (_significant_tokens toks).isEmpty) :
    varEventsLoop cur ln ((toks, ind) :: rest) = varEventsLoop cur (ln + 1) rest := by
  simp [varEventsLoop, h]

theorem varEventsLoop_header (cur : Option (List Char × Nat)) (ln : Nat)
    (toks : List Token) (ind : Nat) (rest : List (List Token × Nat))
    (t0 : Token) (stl : List Token) (fd : FuncDef)
    (hS : _significant_tokens toks = t0 :: stl)
    (hkw : t0.type = TokenType.KEYWORD ∧ t0.value = kwFunc)
    (hp : _parse_func_header (t0 :: stl) ln ind = some fd) :
    varEventsLoop cur ln ((toks, ind) :: rest) =
      paramEvents fd ++ varEventsLoop (some (fd.name, ind)) (ln + 1) rest := by
  rw [varEventsLoop, hS]
  simp [hkw, hp]

theorem varEventsLoop_nohdr (cur : Option (List Char × Nat)) (ln : Nat)
    (toks : List Token) (ind : Nat) (rest : List (List Token × Nat))
    (t0 : Token) (stl : List Token)
    (hS : _significant_tokens toks = t0 :: stl)
    (hkw : t0.type = TokenType.KEYWORD ∧ t0.value = kwFunc)
    (hp : _parse_func_header (t0 :: stl) ln ind = none) :
    varEventsLoop cur ln ((toks, ind) :: rest) =
      assignEvents (t0 :: stl) ln ((stepCur cur ind).map Prod.fst) ++
        varEventsLoop (stepCur cur ind) (ln + 1) rest := by
  rw [varEventsLoop, hS]
  simp [hkw, hp]

theorem varEventsLoop_nokw (cur : Option (List Char × Nat)) (ln : Nat)
    (toks : List Token) (ind : Nat) (rest : List (List Token × Nat))
    (t0 : Token) (stl : List Token)
    (hS : _significant_tokens toks = t0 :: stl)
    (hkw : ¬ (t0.type = TokenType.KEYWORD ∧ t0.value = kwFunc)) :
    varEventsLoop cur ln ((toks, ind) :: rest) =
      assignEvents (t0 :: stl) ln ((stepCur cur ind).map Prod.fst) ++
        varEventsLoop (stepCur cur ind) (ln + 1) rest := by
  rw [varEventsLoop, hS]
  simp [hkw]

/-- The variable table built by the pass is the first-wins fold of the
declaration-event list. -/
theorem parseLines_vars_events :
    ∀ (rest : List (List Token × Nat)) (ln : Nat) (st : PState),
      (parseLines st ln rest).vars =
        (varEventsLoop st.cur ln rest).foldl (fun vs kv => insertNew kv.1 kv.2 vs) st.vars := by
  intro rest
  induction rest with
  | nil => intro ln st; rfl
  | cons q rest' ih =>
    intro ln st
    obtain ⟨toks, ind⟩ := q
    rw [show parseLines st ln ((toks, ind) :: rest') =
      parseLines (parseStep st ln toks ind) (ln + 1) rest' from rfl]
    by_cases hsig : (_significant_tokens toks).isEmpty
    · rw [parseStep_blank _ _ _ _ hsig, varEventsLoop_blank _ _ _ _ _ hsig]
      exact ih (ln + 1) st
    · obtain ⟨t0, stl, hS⟩ : ∃ t0 stl, _significant_tokens toks = t0 :: stl := by
        rcases hS : _significant_tokens toks with _ | ⟨t0, stl⟩
        · rw [hS] at hsig
          simp at hsig
        · exact ⟨t0, stl, rfl⟩
      rw [parseStep_sig _ _ _ _ hsig, hS]
      by_cases hkw : t0.type = TokenType.KEYWORD ∧ t0.value = kwFunc
      · rcases hparse : _parse_func_header (t0 :: stl) ln ind with _ | fd
        · rw [parseStepMain_nohdr _ t0 stl ln ind hkw hparse,
            varEventsLoop_nohdr st.cur ln toks ind rest' t0 stl hS hkw hparse]
          rw [ih (ln + 1) _]
          rw [List.foldl_append]
          simp only [parseStepClose_cur, parseStepClose_vars]
          rw [extract_eq_events]
        · rw [parseStepMain_header _ t0 stl ln ind fd hkw hparse,
            varEventsLoop_header st.cur ln toks ind rest' t0 stl fd hS hkw hparse]
          rw [ih (ln + 1) _]
          rw [List.foldl_append]
          simp only [parseStepClose_vars]
          rw [register_eq_events]
      · rw [parseStepMain_nokw _ t0 stl ln ind hkw,
          varEventsLoop_nokw st.cur ln toks ind rest' t0 stl hS hkw]
        rw [ih (ln + 1) _]
        rw [List.foldl_append]
        simp only [parseStepClose_cur, parseStepClose_vars]
        rw [extract_eq_events]

theorem finishParse_vars (st : PState) (n : Nat) : (finishParse st n).vars = st.vars := by
  rcases hcur : st.cur with _ | ⟨nm, fI⟩
  · simp [finishParse, hcur]
  · simp [finishParse, hcur]

/-- The variable table of a parsed document is the first-wins fold of its
declaration events. -/
theorem parse_vars_events (source : List Char) :
    (parse_document source).vars =
      (varEvents (parse_document source)).foldl (fun vs kv => insertNew kv.1 kv.2 vs) [] := by
  have hv : (parse_document source).vars =
      (parseLines ⟨[], [], none⟩ 0 (lineData (parse_document source))).vars := by
    rw [show (parse_document source).vars =
      (finishParse (parseLines ⟨[], [], none⟩ 0 (lineData (parse_document source)))
        (parse_document source).lines.length).vars from rfl]
    rw [finishParse_vars]
  rw [hv, parseLines_vars_events]
  rfl

theorem lookupA_append_some {α : Type} (k : List Char) (v : α)
    (l1 l2 : List (List Char × α)) (h : lookupA k l1 = some v) :
    lookupA k (l1 ++ l2) = some v := by
  induction l1 with
  | nil => exact Option.noConfusion h
  | cons p rest ih =>
    simp only [lookupA] at h ⊢
    by_cases hp : p.1 = k
    · simpa [hp] using h
    · rw [if_neg hp] at h ⊢
      exact ih h

theorem lookupA_append_none {α : Type} (k : List Char)
    (l1 l2 : List (List Char × α)) (h : lookupA k l1 = none) :
    lookupA k (l1 ++ l2) = lookupA k l2 := by
  induction l1 with
  | nil => rfl
  | cons p rest ih =>
    simp only [lookupA] at h ⊢
    by_cases hp : p.1 = k
    · simp [hp] at h
    · rw [if_neg hp] at h ⊢
      exact ih h

/-- First-wins lookup: folding `insertNew` over an event list records, for
each key, the value of the first event with that key (an existing entry is
never overwritten). -/
theorem foldl_ins_lookup :
    ∀ (evs : List (List Char × VarDef)) (init : List (List Char × VarDef)) (k : List Char),
      lookupA k (evs.foldl (fun vs kv => insertNew kv.1 kv.2 vs) init) =
        (match lookupA k init with
         | some v => some v
         | none => (evs.find? (fun kv => decide (kv.1 = k))).map Prod.snd) := by
  intro evs
  induction evs with
  | nil =>
    intro init k
    cases h : lookupA k init <;> simp [h]
  | cons kv0 evs ih =>
    intro init k
    obtain ⟨k0, v0⟩ := kv0
    rw [List.foldl_cons, ih]
    by_cases hk0 : (lookupA k0 init).isSome
    · rw [show insertNew k0 v0 init = init by simp [insertNew, hk0]]
      cases hki : lookupA k init with
      | some v => simp
      | none =>
        simp only [List.find?_cons]
        have hne : ¬ (k0 = k) := by
          intro he
          rw [he] at hk0
          rw [hki] at hk0
          simp at hk0
        simp [hne]
    · rw [show insertNew k0 v0 init = init ++ [(k0, v0)] by simp [insertNew, hk0]]
      cases hki : lookupA k init with
      | some v =>
        rw [lookupA_append_some k v init [(k0, v0)] hki]
      | none =>
        rw [lookupA_append_none k init [(k0, v0)] hki]
        simp only [List.find?_cons]
        by_cases hne : k0 = k
        · simp [lookupA, hne]
        · simp [lookupA, hne]

theorem lookupA_eq_none_iff {α : Type} (k : List Char) (l : List (List Char × α)) :
    lookupA k l = none ↔ k ∉ l.map Prod.fst := by
  induction l with
  | nil => simp [lookupA]
  | cons p rest ih =>
    simp only [lookupA, List.map_cons, List.mem_cons]
    by_cases hp : p.1 = k
    · rw [if_pos hp]
      constructor
      · intro h
        exact Option.noConfusion h
      · intro h
        exact absurd (Or.inl hp.symm) h
    · rw [if_neg hp, ih]
      constructor
      · intro h hmem
        rcases hmem with he | hm
        · exact hp he.symm
        · exact h hm
      · intro h hm
        exact h (Or.inr hm)

/-- The fold keeps the table's keys distinct. -/
theorem foldl_ins_nodup :
    ∀ (evs : List (List Char × VarDef)) (init : List (List Char × VarDef)),
      (init.map Prod.fst).Nodup →
      (((evs.foldl (fun vs kv => insertNew kv.1 kv.2 vs) init)).map Prod.fst).Nodup := by
  intro evs
  induction evs with
  | nil => intro init h; exact h
  | cons kv0 evs ih =>
    intro init h
    rw [List.foldl_cons]
    refine ih _ ?_
    by_cases hk0 : (lookupA kv0.1 init).isSome
    · rw [show insertNew kv0.1 kv0.2 init = init by simp [insertNew, hk0]]
      exact h
    · rw [show insertNew kv0.1 kv0.2 init = init ++ [(kv0.1, kv0.2)] by simp [insertNew, hk0]]
      rw [List.map_append]
      simp only [List.map_cons, List.map_nil]
      rw [List.nodup_append]
      refine ⟨h, List.nodup_singleton _, ?_⟩
      intro a ha hb
      simp at hb
      subst hb
      have := (lookupA_eq_none_iff kv0.1 init).mp (by
        cases hl : lookupA kv0.1 init
        · rfl
        · rw [hl] at hk0
          simp at hk0)
      exact this ha

/-! ## Lemmas: identifier values contain no colon -/

theorem singleTok_ne_ident (c : Char) : singleTok c ≠ TokenType.IDENTIFIER := by
  unfold singleTok
  split_ifs <;> decide

/-- Identifier tokens produced by the lexer never contain a colon: the colon
character is neither an identifier-start nor an identifier-part character. -/
theorem tokenize_go_ident_no_colon (ln : Nat) :
    ∀ (fuel : Nat) (rest : List Char) (i : Nat) (t : Token),
      t ∈ tokenize_go ln fuel rest i → t.type = TokenType.IDENTIFIER → ':' ∉ t.value := by
  intro fuel
  induction fuel with
  | zero =>
    intro rest i t ht _
    simp [tokenize_go] at ht
  | succ fuel ih =>
    intro rest i t ht htype
    match rest with
    | [] => simp [tokenize_go] at ht
    | c :: rest =>
      by_cases h1 : c = '#'
      · simp only [tokenize_go, if_pos h1, List.mem_singleton] at ht
        subst ht
        exact TokenType.noConfusion htype
      · by_cases h2 : isSpaceTab c
        · simp only [tokenize_go, if_neg h1, if_pos h2, List.mem_cons] at ht
          rcases ht with rfl | ht
          · exact TokenType.noConfusion htype
          · exact ih _ _ t ht htype
        · by_cases h3 : c = '"'
          · rcases hstr : rest.dropWhile (fun d => decide (d ≠ '"')) with _ | ⟨d, ds⟩
            · simp only [tokenize_go, if_neg h1, if_neg h2, if_pos h3, hstr,
                List.mem_singleton] at ht
              subst ht
              exact TokenType.noConfusion htype
            · have hd : d = '"' := by
                have := dropWhile_cons_false hstr
                simpa using this
              subst hd
              simp only [tokenize_go, if_neg h1, if_neg h2, if_pos h3, hstr,
                List.mem_cons] at ht
              rcases ht with rfl | ht
              · exact TokenType.noConfusion htype
              · exact ih _ _ t ht htype
          · by_cases h4 : digitCh c
            · simp only [tokenize_go, if_neg h1, if_neg h2, if_neg h3, if_pos h4,
                List.mem_cons] at ht
              rcases ht with rfl | ht
              · exact TokenType.noConfusion htype
              · exact ih _ _ t ht htype
            · by_cases h5 : identStartCh c
              · simp only [tokenize_go, if_neg h1, if_neg h2, if_neg h3, if_neg h4,
                  if_pos h5, List.mem_cons] at ht
                rcases ht with rfl | ht
                · intro hmem
                  simp only at hmem
                  rcases List.mem_cons.mp hmem with he | hm
                  · rw [← he] at h5
                    exact absurd h5 (by decide)
                  · have := mem_takeWhile_sat hm
                    exact absurd this (by decide)
                · exact ih _ _ t ht htype
              · match rest with
                | [] =>
                  simp only [tokenize_go, if_neg h1, if_neg h2, if_neg h3, if_neg h4,
                    if_neg h5, List.mem_singleton] at ht
                  subst ht
                  exact absurd htype (singleTok_ne_ident c)
                | c2 :: rest2 =>
                  by_cases h6 : [c, c2] ∈ OPERATORS_DOUBLE
                  · simp only [tokenize_go, if_neg h1, if_neg h2, if_neg h3, if_neg h4,
                      if_neg h5, if_pos h6, List.mem_cons] at ht
                    rcases ht with rfl | ht
                    · exact TokenType.noConfusion htype
                    · exact ih _ _ t ht htype
                  · simp only [tokenize_go, if_neg h1, if_neg h2, if_neg h3, if_neg h4,
                      if_neg h5, if_neg h6, List.mem_cons] at ht
                    rcases ht with rfl | ht
                    · exact absurd htype (singleTok_ne_ident c)
                    · exact ih _ _ t ht htype

/-- Identifier tokens anywhere in a parsed document contain no colon. -/
theorem parse_tokens_ident_no_colon (source : List Char) :
    ∀ q ∈ lineData (parse_document source), ∀ t ∈ q.1,
      t.type = TokenType.IDENTIFIER → ':' ∉ t.value := by
  intro q hq t htk htype
  have hq1 : q.1 ∈ (parse_document source).tokens := by
    obtain ⟨a, b⟩ := q
    exact (List.of_mem_zip hq).1
  have hq2 : q.1 ∈ (rawLinesOf source).enum.map (fun p => tokenize_line p.2 p.1) := hq1
  obtain ⟨p, -, hp⟩ := List.mem_map.mp hq2
  rw [← hp] at htk
  exact tokenize_go_ident_no_colon p.1 p.2.length p.2 0 t htk htype

theorem parse_func_header_name_mem (sig : List Token) (ln ind : Nat) (fd : FuncDef)
    (h : _parse_func_header sig ln ind = some fd) :
    ∃ t, t ∈ sig ∧ t.type = TokenType.IDENTIFIER ∧ fd.name = t.value := by
  match sig, h with
  | [], h => rw [parse_func_header_short _ _ _ (by simp)] at h; exact Option.noConfusion h
  | [t], h => rw [parse_func_header_short _ _ _ (by simp)] at h; exact Option.noConfusion h
  | t0 :: name_tok :: rest2, h =>
    rw [parse_func_header_cons_eq] at h
    by_cases h1 : (t0 :: name_tok :: rest2).length < 4
    · rw [if_pos h1] at h
      exact Option.noConfusion h
    · rw [if_neg h1] at h
      by_cases h2 : name_tok.type = TokenType.IDENTIFIER
      · rw [if_neg (fun hc => hc h2)] at h
        rcases h3 : rest2.dropWhile (fun t => decide (t.type ≠ TokenType.PAREN_OPEN)) with
          _ | ⟨u, inside⟩
        · rw [h3] at h
          exact Option.noConfusion h
        · rw [h3] at h
          have hfd := (Option.some.injEq _ _).mp h
          refine ⟨name_tok, List.mem_cons_of_mem _ (List.mem_cons_self _ _), h2, ?_⟩
          rw [← hfd]
      · rw [if_pos h2] at h
        exact Option.noConfusion h

theorem parse_func_header_params_mem (sig : List Token) (ln ind : Nat) (fd : FuncDef)
    (h : _parse_func_header sig ln ind = some fd) :
    ∀ pi ∈ fd.params, ∃ t, t ∈ sig ∧ t.type = TokenType.IDENTIFIER ∧ pi.name = t.value := by
  match sig, h with
  | [], h => rw [parse_func_header_short _ _ _ (by simp)] at h; exact Option.noConfusion h
  | [t], h => rw [parse_func_header_short _ _ _ (by simp)] at h; exact Option.noConfusion h
  | t0 :: name_tok :: rest2, h =>
    rw [parse_func_header_cons_eq] at h
    by_cases h1 : (t0 :: name_tok :: rest2).length < 4
    · rw [if_pos h1] at h
      exact Option.noConfusion h
    · rw [if_neg h1] at h
      by_cases h2 : name_tok.type = TokenType.IDENTIFIER
      · rw [if_neg (fun hc => hc h2)] at h
        rcases h3 : rest2.dropWhile (fun t => decide (t.type ≠ TokenType.PAREN_OPEN)) with
          _ | ⟨u, inside⟩
        · rw [h3] at h
          exact Option.noConfusion h
        · rw [h3] at h
          have hfd := (Option.some.injEq _ _).mp h
          intro pi hpi
          rw [← hfd] at hpi
          simp only at hpi
          obtain ⟨t, htmem, hteq⟩ := List.mem_map.mp hpi
          have htf := List.mem_filter.mp htmem
          have httype : t.type = TokenType.IDENTIFIER := by simpa using htf.2
          have htin : t ∈ inside :=
            (List.takeWhile_prefix _).subset htf.1
          have htdw : t ∈ rest2.dropWhile (fun t => decide (t.type ≠ TokenType.PAREN_OPEN)) := by
            rw [h3]
            exact List.mem_cons_of_mem _ htin
          have htr2 : t ∈ rest2 := (List.dropWhile_suffix _).subset htdw
          refine ⟨t, List.mem_cons_of_mem _ (List.mem_cons_of_mem _ htr2), httype, ?_⟩
          rw [← hteq]
      · rw [if_pos h2] at h
        exact Option.noConfusion h

/-- Every table entry originates from the event list (or the initial
table). -/
theorem mem_foldl_ins :
    ∀ (evs : List (List Char × VarDef)) (init : List (List Char × VarDef))
      (x : List Char × VarDef),
      x ∈ evs.foldl (fun vs kv => insertNew kv.1 kv.2 vs) init → x ∈ init ∨ x ∈ evs := by
  intro evs
  induction evs with
  | nil => intro init x h; exact Or.inl h
  | cons kv0 evs ih =>
    intro init x h
    rw [List.foldl_cons] at h
    rcases ih _ x h with hin | hin
    · unfold insertNew at hin
      by_cases hk0 : (lookupA kv0.1 init).isSome
      · rw [if_pos hk0] at hin
        exact Or.inl hin
      · rw [if_neg hk0] at hin
        rcases List.mem_append.mp hin with hin | hin
        · exact Or.inl hin
        · simp at hin
          subst hin
          exact Or.inr (List.mem_cons_self _ _)
    · exact Or.inr (List.mem_cons_of_mem _ hin)

/-- Shape of an assignment event: the recorded name is colon-free, and the
key is either the bare name (global scope) or `scope:name` with a colon-free
scope. -/
theorem assignEvents_shape (sig : List Token) (ln : Nat) (cur_name : Option (List Char))
    (hname : ∀ n, cur_name = some n → ':' ∉ n)
    (hsig : ∀ t ∈ sig, t.type = TokenType.IDENTIFIER → ':' ∉ t.value) :
    ∀ kv ∈ assignEvents sig ln cur_name,
      ':' ∉ kv.2.name ∧
      (kv.1 = kv.2.name ∨ (kv.1 = kv.2.scope ++ ':' :: kv.2.name ∧ ':' ∉ kv.2.scope)) := by
  intro kv hkv
  unfold assignEvents at hkv
  by_cases h1 : sig.length < 3
  · rw [if_pos h1] at hkv
    simp at hkv
  · rw [if_neg h1] at hkv
    match sig, hsig, hkv with
    | t0 :: t1 :: tl, hsig, hkv =>
      dsimp only at hkv
      by_cases h2 : t0.type = TokenType.IDENTIFIER ∧ t1.type = TokenType.OPERATOR ∧
          t1.value = ['=']
      · rw [if_pos h2] at hkv
        have hkv' : kv = _ := List.mem_singleton.mp hkv
        subst hkv'
        have hnc : ':' ∉ t0.value := hsig t0 (List.mem_cons_self _ _) h2.1
        rcases cur_name with _ | n
        · exact ⟨hnc, Or.inl rfl⟩
        · exact ⟨hnc, Or.inr ⟨rfl, hname n rfl⟩⟩
      · rw [if_neg h2] at hkv
        simp at hkv

/-- Shape of the parameter pre-registration events of a recognized header. -/
theorem paramEvents_shape (fd : FuncDef) (hn : ':' ∉ fd.name)
    (hp : ∀ pi ∈ fd.params, ':' ∉ pi.name) :
    ∀ kv ∈ paramEvents fd,
      ':' ∉ kv.2.name ∧
      (kv.1 = kv.2.name ∨ (kv.1 = kv.2.scope ++ ':' :: kv.2.name ∧ ':' ∉ kv.2.scope)) := by
  intro kv hkv
  unfold paramEvents at hkv
  obtain ⟨pi, hpi, hkv'⟩ := List.mem_map.mp hkv
  subst hkv'
  exact ⟨hp pi hpi, Or.inr ⟨rfl, hn⟩⟩

theorem stepCur_name (cur : Option (List Char × Nat)) (ind : Nat)
    (h : ∀ nm fI, cur = some (nm, fI) → ':' ∉ nm) :
    ∀ nm fI, stepCur cur ind = some (nm, fI) → ':' ∉ nm := by
  intro nm fI hc
  unfold stepCur at hc
  rcases hcur : cur with _ | ⟨nm0, fI0⟩
  · rw [hcur] at hc
    exact Option.noConfusion hc
  · rw [hcur] at hc
    dsimp only at hc
    by_cases hle : ind ≤ fI0
    · rw [if_pos hle] at hc
      exact Option.noConfusion hc
    · rw [if_neg hle] at hc
      have heq := (Option.some.injEq _ _).mp hc
      have hnm : nm = nm0 := (congrArg Prod.fst heq).symm
      subst hnm
      exact h nm fI0 hcur

/-- Shape of every declaration event of a document whose identifier tokens
are colon-free. -/
theorem varEventsLoop_shape :
    ∀ (rest : List (List Token × Nat)) (cur : Option (List Char × Nat)) (ln : Nat),
      (∀ q ∈ rest, ∀ t ∈ q.1, t.type = TokenType.IDENTIFIER → ':' ∉ t.value) →
      (∀ nm fI, cur = some (nm, fI) → ':' ∉ nm) →
      ∀ kv ∈ varEventsLoop cur ln rest,
        ':' ∉ kv.2.name ∧
        (kv.1 = kv.2.name ∨ (kv.1 = kv.2.scope ++ ':' :: kv.2.name ∧ ':' ∉ kv.2.scope)) := by
  intro rest
  induction rest with
  | nil =>
    intro cur ln _ _ kv hkv
    simp [varEventsLoop] at hkv
  | cons q rest' ih =>
    intro cur ln hL hcur kv hkv
    obtain ⟨toks, ind⟩ := q
    have hLrest : ∀ q ∈ rest', ∀ t ∈ q.1, t.type = TokenType.IDENTIFIER → ':' ∉ t.value :=
      fun q hq => hL q (List.mem_cons_of_mem _ hq)
    have hLtoks : ∀ t ∈ toks, t.type = TokenType.IDENTIFIER → ':' ∉ t.value :=
      hL (toks, ind) (List.mem_cons_self _ _)
    have hLsig : ∀ t ∈ _significant_tokens toks, t.type = TokenType.IDENTIFIER →
        ':' ∉ t.value :=
      fun t htm => hLtoks t (List.mem_of_mem_filter htm)
    by_cases hsig : (_significant_tokens toks).isEmpty
    · rw [varEventsLoop_blank _ _ _ _ _ hsig] at hkv
      exact ih cur (ln + 1) hLrest hcur kv hkv
    · obtain ⟨t0, stl, hS⟩ : ∃ t0 stl, _significant_tokens toks = t0 :: stl := by
        rcases hS : _significant_tokens toks with _ | ⟨t0, stl⟩
        · rw [hS] at hsig
          simp at hsig
        · exact ⟨t0, stl, rfl⟩
      by_cases hkw : t0.type = TokenType.KEYWORD ∧ t0.value = kwFunc
      · rcases hparse : _parse_func_header (t0 :: stl) ln ind with _ | fd
        · rw [varEventsLoop_nohdr cur ln toks ind rest' t0 stl hS hkw hparse] at hkv
          rcases List.mem_append.mp hkv with hkv | hkv
          · exact assignEvents_shape (t0 :: stl) ln ((stepCur cur ind).map Prod.fst)
              (by
                intro n hn
                rcases hsc : stepCur cur ind with _ | ⟨nm1, fI1⟩
                · rw [hsc] at hn
                  exact Option.noConfusion hn
                · rw [hsc] at hn
                  have hn2 : n = nm1 := by simpa using hn.symm
                  rw [hn2]
                  exact stepCur_name cur ind hcur nm1 fI1 hsc)
              (hS ▸ hLsig) kv hkv
          · exact ih (stepCur cur ind) (ln + 1) hLrest (stepCur_name cur ind hcur) kv hkv
        · rw [varEventsLoop_header cur ln toks ind rest' t0 stl fd hS hkw hparse] at hkv
          have hnamec : ':' ∉ fd.name := by
            obtain ⟨t, htm, httype, htval⟩ := parse_func_header_name_mem _ _ _ _ hparse
            rw [htval]
            exact hLsig t (hS ▸ htm) httype
          rcases List.mem_append.mp hkv with hkv | hkv
          · refine paramEvents_shape fd hnamec (fun pi hpi => ?_) kv hkv
            obtain ⟨t, htm, httype, htval⟩ :=
              parse_func_header_params_mem _ _ _ _ hparse pi hpi
            rw [htval]
            exact hLsig t (hS ▸ htm) httype
          · refine ih (some (fd.name, ind)) (ln + 1) hLrest (fun nm fI hc => ?_) kv hkv
            have heq := (Option.some.injEq _ _).mp hc
            have hnm : nm = fd.name := (congrArg Prod.fst heq).symm
            subst hnm
            exact hnamec
      · rw [varEventsLoop_nokw cur ln toks ind rest' t0 stl hS hkw] at hkv
        rcases List.mem_append.mp hkv with hkv | hkv
        · exact assignEvents_shape (t0 :: stl) ln ((stepCur cur ind).map Prod.fst)
            (by
              intro n hn
              rcases hsc : stepCur cur ind with _ | ⟨nm1, fI1⟩
              · rw [hsc] at hn
                exact Option.noConfusion hn
              · rw [hsc] at hn
                have hn2 : n = nm1 := by simpa using hn.symm
                rw [hn2]
                exact stepCur_name cur ind hcur nm1 fI1 hsc)
            (hS ▸ hLsig) kv hkv
        · exact ih (stepCur cur ind) (ln + 1) hLrest (stepCur_name cur ind hcur) kv hkv

/-- C4 counterexample: in

    कार्यम् f(a):
        a = 1

the variable table's entry for the pair (scope `f`, name `a`) — key `f:a` —
records line 0, column 10: the parameter's position in the header, not the
first assignment to `a`, which is at line 1 (whose first significant token
is the identifier `a` and whose second is the `=` operator). -/
theorem variables_param_preregistration_cex :
    lookupA "f:a".toList (parse_document "कार्यम् f(a):\n    a = 1".toList).vars =
      some ⟨"a".toList, 0, 10, "f".toList⟩ ∧
    (parse_document "कार्यम् f(a):\n    a = 1".toList).tokens.findIdx?
      (fun toks => isAssignShapeFor "a".toList (_significant_tokens toks)) = some 1 ∧
    (0 : Nat) ≠ 1 :=
  ⟨by decide, by decide, by decide⟩

/-- C4 (amended): the variable table is keyed `scope:name` for function
scopes and bare `name` for the global scope; it holds at most one entry per
key (keys are pairwise distinct, and since recorded names and scopes are
colon-free, distinct (scope, name) pairs — including the same name in the
global scope and in distinct function scopes — always get distinct keys and
are tracked independently); and each entry records the *first* declaration
event for its key in document order, where the events of a line are the
parameter pre-registrations of a recognized function header, or the single
assignment event of a line with at least three significant tokens whose
first significant token is an identifier and whose second is the `=`
operator (so a parameter entry records the parameter's position, and later
assignments to an already-recorded key leave the entry unchanged). -/
theorem variables_first_wins_characterization (source : List Char) :
    (∀ k, lookupA k (parse_document source).vars =
      ((varEvents (parse_document source)).find?
        (fun kv => decide (kv.1 = k))).map Prod.snd) ∧
    ((parse_document source).vars.map Prod.fst).Nodup ∧
    (∀ kv, kv ∈ (parse_document source).vars →
      ':' ∉ kv.2.name ∧
      (kv.1 = kv.2.name ∨ (kv.1 = kv.2.scope ++ ':' :: kv.2.name ∧ ':' ∉ kv.2.scope))) := by
  refine ⟨?_, ?_, ?_⟩
  · intro k
    rw [parse_vars_events, foldl_ins_lookup]
    rfl
  · rw [parse_vars_events]
    exact foldl_ins_nodup _ [] (by simp)
  · intro kv hkv
    rw [parse_vars_events] at hkv
    rcases mem_foldl_ins _ _ _ hkv with h | h
    · simp at h
    · exact varEventsLoop_shape (lineData (parse_document source)) none 0
        (parse_tokens_ident_no_colon source) (fun nm fI hc => Option.noConfusion hc) kv h

/-- Witness for the first-wins characterization at the counterexample
document: the entry under key `f:a` is a table entry of the claimed shape
(a scoped key `f:a` with colon-free scope `f` and name `a`). -/
theorem variables_first_wins_characterization_witness :
    ':' ∉ (⟨"a".toList, 0, 10, "f".toList⟩ : VarDef).name ∧
    ("f:a".toList = (⟨"a".toList, 0, 10, "f".toList⟩ : VarDef).name ∨
      ("f:a".toList =
        (⟨"a".toList, 0, 10, "f".toList⟩ : VarDef).scope ++
          ':' :: (⟨"a".toList, 0, 10, "f".toList⟩ : VarDef).name ∧
       ':' ∉ (⟨"a".toList, 0, 10, "f".toList⟩ : VarDef).scope)) :=
  (variables_first_wins_characterization "कार्यम् f(a):\n    a = 1".toList).2.2
    ("f:a".toList, ⟨"a".toList, 0, 10, "f".toList⟩) (by decide)

end SansScript
